import Mathlib

/-!
# Verification of the `hann` approximate-nearest-neighbour library

A shallow embedding, in Lean 4, of the parts of the `hann` Go library that the
specification claims speak about: the three index engines (HNSW, PQIVF, RPT),
their mutators and their `Search` pipelines.

Modelling conventions, used throughout:

* Go `[]float32` vectors are modelled as `List ℚ` and all arithmetic is exact
  rational arithmetic.  Square roots (`math.Sqrt`, `sqrtf`) are modelled by
  `ratSqrt`, which is exact on perfect squares and returns `0` elsewhere; every
  concrete instance evaluated below uses perfect-square radicands only, and the
  structural theorems do not depend on the values `ratSqrt` takes.
* Go `int` is modelled as `ℤ` where it can be negative (ids, levels, counts)
  and as `ℕ` for sizes that the code keeps non-negative.
* Go maps are modelled as association lists in insertion order.  Where Go map
  iteration order is observable the spot is marked in a comment; every theorem
  stated over such a definition is insensitive to the enumeration order.
* `math/rand.Rand` is modelled by `Rng`, an explicit stream of uniform draws;
  operations that sample randomness take the stream as an argument, so the
  theorems quantify over all possible draws.
* `sort.Slice` is modelled by `sortSlice`, Go's insertion sort (the algorithm
  `sort.Slice` runs on slices shorter than 12 elements).  For the total
  comparators used by HNSW the result coincides with any correct sort; for the
  distance-only comparators of PQIVF and RPT the model fixes the tie order to
  the stable one, which is exactly what Go's insertion sort produces on the
  short slices used in the concrete runs below.
* `container/heap` priority queues are modelled by lists kept sorted by the
  queue's own `Less`: the engines observe a heap only through `h[0]`, `Push`
  and `Pop`, and for a total `Less` this observable behaviour is exactly that
  of the sorted list.  Ties under the (non-total) fallback comparators keep
  insertion order; no theorem below depends on that choice.
* Unrecoverable Go runtime faults that the embedded code can actually reach
  (integer division by zero) are modelled as an explicit error value.
-/

/-! ## Shared primitives (package `core` and Go built-ins) -/

/-- Exact square root on ℚ: the true square root when the operand is a ratio of
perfect squares, and `0` otherwise.  Models `math.Sqrt`/`sqrtf`, which the Go
code applies inside the distance kernels; every concrete evaluation in this
file applies it to perfect squares only. -/
def ratSqrt (q : ℚ) : ℚ :=
  let sn := Nat.sqrt q.num.toNat
  let sd := Nat.sqrt q.den
  if 0 ≤ q.num ∧ sn * sn = q.num.toNat ∧ sd * sd = q.den then (sn : ℚ) / (sd : ℚ) else 0

/-- Sum of squares of a vector, the radicand used by the L2 kernels. -/
def sumSq (v : List ℚ) : ℚ := (v.map (fun x => x * x)).sum

/-- `core.Euclidean` (via the C kernel `simd_euclidean`): the L2 distance
`sqrt (Σ (aᵢ-bᵢ)²)`, in exact arithmetic. -/
def euclideanQ (a b : List ℚ) : ℚ :=
  ratSqrt (sumSq (List.zipWith (fun x y => x - y) a b))

/-- `core.NormalizeVector` (C kernel `avx_normalize`): divide by the L2 norm,
leaving the vector untouched when the norm is zero. -/
def normalizeQ (v : List ℚ) : List ℚ :=
  let n := ratSqrt (sumSq v)
  if n = 0 then v else v.map (· / n)

/-- `core.Neighbor`: an id paired with its distance to the query. -/
structure Neighbor where
  id : ℤ
  dist : ℚ
  deriving DecidableEq, Repr, Inhabited

/-- The error outcomes the embedded operations can produce.  `panicDivZero`
stands for the Go runtime fault `integer divide by zero` (reachable in the
HNSW fallback scan when the worker count is capped to an empty node slice). -/
inductive GoErr where
  | dimensionMismatch
  | duplicateId
  | missingId
  | emptyIndex
  | encodeFailed
  | trainNoData
  | panicDivZero
  | panicSliceBounds
  deriving DecidableEq, Repr

/-- Equality of fallible results is decidable (used to evaluate concrete
searches). -/
instance {ε α : Type _} [DecidableEq ε] [DecidableEq α] : DecidableEq (Except ε α) :=
  fun a b =>
    match a, b with
    | .ok x, .ok y =>
        match decEq x y with
        | isTrue h => isTrue (h ▸ rfl)
        | isFalse h => isFalse (fun hh => h (Except.ok.inj hh))
    | .error e, .error f =>
        match decEq e f with
        | isTrue h => isTrue (h ▸ rfl)
        | isFalse h => isFalse (fun hh => h (Except.error.inj hh))
    | .ok _, .error _ => isFalse (fun hh => Except.noConfusion hh)
    | .error _, .ok _ => isFalse (fun hh => Except.noConfusion hh)

/-! ### `sort.Slice`

Go's `sort.Slice(x, less)` sorts by an arbitrary strict comparator; on slices
shorter than 12 elements it runs plain insertion sort, which is what
`sortSlice` implements (insert each element after every element it is not
strictly less than).  All sortedness theorems below hold for any correct sort,
and each concrete run below sorts fewer than 12 elements, so the model agrees
with Go exactly where it is evaluated. -/

/-- Insert `x` into an already sorted list, after every element `y` with
`less x y = false` — the position Go's insertion sort gives it. -/
def goInsert (less : α → α → Bool) (x : α) : List α → List α
  | [] => [x]
  | y :: ys => if less x y then x :: y :: ys else y :: goInsert less x ys

/-- Go's insertion sort (`sort.Slice` on short slices): fold the slice from the
left, inserting each element into the sorted prefix. -/
def sortSlice (less : α → α → Bool) (l : List α) : List α :=
  l.foldl (fun acc x => goInsert less x acc) []

/-- Comparator laws that both engine comparators satisfy: strict transitivity
and asymmetry. -/
def StrictCmp (less : α → α → Bool) : Prop :=
  (∀ a b c, less a b = true → less b c = true → less a c = true) ∧
  (∀ a b, less a b = true → less b a = false)

/-! ### Randomness

`math/rand.Rand` is modelled by an explicit stream of draws: `floats` backs
`Float32()`/`Float64()` (uniform draws in `[0,1)`, modelled as rationals) and
`ints` backs `Intn` (the drawn value, clipped into range).  Every operation
that samples randomness threads an `Rng` explicitly, so theorems quantify over
all possible streams. -/

structure Rng where
  floats : List ℚ
  ints : List ℕ
  deriving DecidableEq, Repr, Inhabited

/-- One `Float32()`/`Float64()` draw. -/
def Rng.nextFloat (r : Rng) : ℚ × Rng :=
  (r.floats.headD 0, { r with floats := r.floats.tail })

/-- One `Intn n` draw: the head of the integer stream, clipped below `n`. -/
def Rng.nextIntn (r : Rng) (n : ℕ) : ℕ × Rng :=
  (min (r.ints.headD 0) (n - 1), { r with ints := r.ints.tail })

/-- `rand.Perm n`: the Fisher–Yates shuffle exactly as `math/rand` builds it,
`m[i], m[j] = m[j], i` for `j := Intn(i+1)`. -/
def Rng.perm (r : Rng) (n : ℕ) : List ℕ × Rng :=
  (List.range n).foldl
    (fun (acc : List ℕ × Rng) i =>
      let (j, r') := acc.2.nextIntn (i + 1)
      let m := acc.1
      ((m.set i (m.getD j 0)).set j i, r'))
    (List.replicate n 0, r)

/-! ### Small vector and association-list helpers -/

/-- Pointwise sum of a bag of vectors, starting from `make([]float32, dim)`,
exactly the accumulation loop of `recalcCentroid` and of the k-means mean. -/
def sumVecs (dim : ℕ) (vs : List (List ℚ)) : List ℚ :=
  vs.foldl (fun acc w => List.zipWith (· + ·) acc w) (List.replicate dim 0)

/-- `vectorAdd` (element-wise sum; the Go function errors on a length mismatch,
which its callers turn into a fallback — the length check is kept at the call
sites that need it). -/
def vectorAdd (a b : List ℚ) : List ℚ := List.zipWith (· + ·) a b

/-- `vectorSub` (element-wise difference). -/
def vectorSub (a b : List ℚ) : List ℚ := List.zipWith (· - ·) a b

/-- Scalar multiple of a vector. -/
def vecSMul (c : ℚ) (v : List ℚ) : List ℚ := v.map (fun x => c * x)

/-- Divide every coordinate by `c` (the final loop of `recalcCentroid`). -/
def vecDivN (v : List ℚ) (c : ℚ) : List ℚ := v.map (fun x => x / c)

/-- The arithmetic mean of a bag of `dim`-dimensional vectors. -/
def meanVec (dim : ℕ) (vs : List (List ℚ)) : List ℚ :=
  vecDivN (sumVecs dim vs) (vs.length : ℚ)

/-- Go map read with a default (absent keys read as the zero value). -/
def alistGet [BEq κ] (l : List (κ × β)) (k : κ) (d : β) : β :=
  (l.lookup k).getD d

/-- Go map write: overwrite the key in place if present, append otherwise.
Go map iteration order is unspecified; the insertion order used here is one
admissible enumeration, and no theorem below depends on it. -/
def alistSet [BEq κ] (l : List (κ × β)) (k : κ) (v : β) : List (κ × β) :=
  if l.any (fun p => p.1 == k) then l.map (fun p => if p.1 == k then (k, v) else p)
  else l ++ [(k, v)]

/-- Go map key-presence test (`_, ok := m[k]`). -/
def alistHas [BEq κ] (l : List (κ × β)) (k : κ) : Bool :=
  l.any (fun p => p.1 == k)

/-- Read `l[i]` for a Go `int` index, with a default out of range (the Go code
only indexes in range wherever this is used on a well-formed state). -/
def listGetI (l : List α) (i : ℤ) (d : α) : α :=
  if 0 ≤ i then l.getD i.toNat d else d

/-- Write `l[i] = v` for a Go `int` index (no-op out of range; in-range on all
well-formed states). -/
def listSetI (l : List α) (i : ℤ) (v : α) : List α :=
  if 0 ≤ i then l.set i.toNat v else l

/-- The running scan of `argminIdx`: `i` is the index of the next candidate,
`acc` the best `(index, distance)` seen so far. -/
def argminScan (d : List ℚ → List ℚ → ℚ) (x : List ℚ) :
    List (List ℚ) → ℕ → (ℤ × Option ℚ) → ℤ × Option ℚ
  | [], _, acc => acc
  | c :: cs, i, acc =>
      let dd := d x c
      let acc' : ℤ × Option ℚ :=
        match acc.2 with
        | none => ((i : ℤ), some dd)
        | some bd => if dd < bd then ((i : ℤ), some dd) else acc
      argminScan d x cs (i + 1) acc'

/-- Index of the nearest candidate vector: the `best := -1; bestDist :=
math.MaxFloat64` linear scan shared by `nearestCentroid`, `encodeVector` and
`trainSubquantizer`.  `none` as the running distance models `MaxFloat64`. -/
def argminIdx (d : List ℚ → List ℚ → ℚ) (cands : List (List ℚ)) (x : List ℚ) : ℤ × Option ℚ :=
  argminScan d x cands 0 (-1, none)

/-! ## The PQIVF engine (package `pqivf`)

Embedding of the full PQIVF implementation (the variant with product-
quantisation training; `PQIVFIndex` and its methods).  The `Distance` field of
the Go struct is threaded as the explicit parameter `dist` (the constructor
and `GobDecode` both pin it to `core.Euclidean`). -/

/-- `pqEntry`: an inverted-list entry.  `codes = none` models a `nil` `Codes`
slice (untrained). -/
structure PQEntry where
  id : ℤ
  vector : List ℚ
  codes : Option (List ℕ)
  cluster : ℤ
  deriving DecidableEq, Repr, Inhabited

/-- `PQIVFIndex` (the serialisable fields; the mutex is concurrency control
only and `Distance` is passed explicitly). -/
structure PQIVFState where
  dimension : ℕ
  coarseK : ℕ
  coarseCentroids : List (List ℚ)
  clusterCounts : List (ℤ × ℤ)
  invertedLists : List (ℤ × List PQEntry)
  numSubquantizers : ℕ
  codebooks : Option (List (List (List ℚ)))
  pqK : ℕ
  kMeansIters : ℕ
  idToCluster : List (ℤ × ℤ)
  numCandidateClusters : ℕ
  deriving DecidableEq, Repr

namespace pqivf

/-- `NewPQIVFIndex` (the constructor panics unless
`dimension % numSubquantizers == 0`; the panic is not modelled, states built
below always satisfy the divisibility). -/
def NewPQIVFIndex (dimension coarseK numSubquantizers pqK kMeansIters : ℕ) : PQIVFState :=
  { dimension := dimension
    coarseK := coarseK
    coarseCentroids := []
    clusterCounts := []
    invertedLists := []
    numSubquantizers := numSubquantizers
    codebooks := none
    pqK := pqK
    kMeansIters := kMeansIters
    idToCluster := []
    numCandidateClusters := 3 }

/-- `recalcCentroid`: replace a cluster's centroid by the arithmetic mean of
the entries currently in its inverted list (no-op when the list is empty). -/
def recalcCentroid (st : PQIVFState) (cluster : ℤ) : PQIVFState :=
  let entries := alistGet st.invertedLists cluster []
  if entries.length = 0 then st
  else
    let newCentroid := vecDivN (sumVecs st.dimension (entries.map (·.vector)))
      (entries.length : ℚ)
    { st with coarseCentroids := listSetI st.coarseCentroids cluster newCentroid }

/-- `nearestCentroid`: linear scan for the closest coarse centroid; `-1` when
no centroid exists yet. -/
def nearestCentroid (dist : List ℚ → List ℚ → ℚ) (st : PQIVFState) (v : List ℚ) :
    ℤ × Option ℚ :=
  argminIdx dist st.coarseCentroids v

/-- `nearestCentroids`: all clusters with their distances to `v`, sorted by
distance ascending (`sort.Slice` with a distance-only comparator). -/
def nearestCentroids (dist : List ℚ → List ℚ → ℚ) (st : PQIVFState) (v : List ℚ) :
    List (ℤ × ℚ) :=
  sortSlice (fun a b => decide (a.2 < b.2))
    (st.coarseCentroids.enum.map (fun p => ((p.1 : ℤ), dist v p.2)))

/-- `splitVector`: `numParts` consecutive sub-vectors of width
`len vec / numParts`. -/
def splitVector (vec : List ℚ) (numParts : ℕ) : List (List ℚ) :=
  let subDim := vec.length / numParts
  (List.range numParts).map (fun i => ((vec.drop (i * subDim)).take subDim))

/-- `encodeVector`: nearest codeword index per subspace for the residual of
`vector` against its coarse centroid.  `none` models every error return
(untrained codebooks, length mismatch in `vectorSub`, empty codebook). -/
def encodeVector (st : PQIVFState) (vector : List ℚ) (cluster : ℤ) : Option (List ℕ) :=
  match st.codebooks with
  | none => none
  | some cbs =>
      let cent := listGetI st.coarseCentroids cluster []
      if vector.length ≠ cent.length then none
      else
        let residual := vectorSub vector cent
        let subVecs := splitVector residual st.numSubquantizers
        let picks := subVecs.enum.map
          (fun p => (argminIdx euclideanQ (cbs.getD p.1 []) p.2).1)
        if picks.all (fun b => 0 ≤ b) then some (picks.map Int.toNat) else none

/-- `decodePQCode`: concatenate the selected codewords; `none` models the
`invalid PQ code` error. -/
def decodePQCode (st : PQIVFState) (codes : List ℕ) : Option (List ℚ) :=
  match st.codebooks with
  | none => none
  | some cbs =>
      if codes.enum.all (fun p => p.1 < cbs.length ∧ p.2 < (cbs.getD p.1 []).length) then
        some (codes.enum.flatMap (fun p => (cbs.getD p.1 []).getD p.2 []))
      else none

/-- The body shared by `Add` and each `BulkAdd` iteration once the dimension
and duplicate checks have passed: choose (or create) the coarse cluster,
update its count, record `id → cluster`, and build the entry (encoding it when
codebooks exist).  Returns the state *before* the entry is appended, the
cluster, and the entry, or the encode error. -/
def addCore (dist : List ℚ → List ℚ → ℚ) (st : PQIVFState) (id : ℤ) (v : List ℚ) :
    (PQIVFState × ℤ × Option PQEntry) :=
  let pick :=
    if st.coarseCentroids.length < st.coarseK then
      let cluster : ℤ := (st.coarseCentroids.length : ℤ)
      ({ st with coarseCentroids := st.coarseCentroids ++ [v],
                 clusterCounts := alistSet st.clusterCounts cluster 1 }, cluster)
    else
      let cluster := (nearestCentroid dist st v).1
      ({ st with clusterCounts :=
           alistSet st.clusterCounts cluster (alistGet st.clusterCounts cluster 0 + 1) },
        cluster)
  let st1 := pick.1
  let cluster := pick.2
  let st2 := { st1 with idToCluster := alistSet st1.idToCluster id cluster }
  match st2.codebooks with
  | some _ =>
      match encodeVector st2 v cluster with
      | none => (st2, cluster, none)
      | some codes => (st2, cluster, some ⟨id, v, some codes, cluster⟩)
  | none => (st2, cluster, some ⟨id, v, none, cluster⟩)

/-- `Add`: insert one vector; append the entry to its cluster's inverted list
and recalculate that cluster's centroid. -/
def Add (dist : List ℚ → List ℚ → ℚ) (st : PQIVFState) (id : ℤ) (v : List ℚ) :
    PQIVFState × Option GoErr :=
  if v.length ≠ st.dimension then (st, some .dimensionMismatch)
  else if alistHas st.idToCluster id then (st, some .duplicateId)
  else
    match addCore dist st id v with
    | (st2, _, none) => (st2, some .encodeFailed)
    | (st2, cluster, some entry) =>
        let lists := alistSet st2.invertedLists cluster
          (alistGet st2.invertedLists cluster [] ++ [entry])
        let st3 := { st2 with invertedLists := lists }
        (recalcCentroid st3 cluster, none)

/-- The `BulkAdd` per-id loop: like `Add` but centroid recalculation is
deferred; `updated` collects the touched clusters.  On the first error the
partially mutated state is returned and — exactly as in the source — the
deferred recalculation loop never runs. -/
def BulkAddLoop (dist : List ℚ → List ℚ → ℚ) (vectors : List (ℤ × List ℚ)) :
    List ℤ → PQIVFState → List ℤ → (PQIVFState × List ℤ × Option GoErr)
  | [], st, updated => (st, updated, none)
  | id :: rest, st, updated =>
      let v := alistGet vectors id []
      if v.length ≠ st.dimension then (st, updated, some .dimensionMismatch)
      else if alistHas st.idToCluster id then (st, updated, some .duplicateId)
      else
        match addCore dist st id v with
        | (st2, _, none) => (st2, updated, some .encodeFailed)
        | (st2, cluster, some entry) =>
            let lists := alistSet st2.invertedLists cluster
              (alistGet st2.invertedLists cluster [] ++ [entry])
            let st3 := { st2 with invertedLists := lists }
            BulkAddLoop dist vectors rest st3 (updated ++ [cluster])

/-- `BulkAdd`: process ids in ascending order, then recalculate the centroid
of every touched cluster — unless an error stopped the loop, in which case the
recalculation is skipped (the committed prefix keeps the stale centroids). -/
def BulkAdd (dist : List ℚ → List ℚ → ℚ) (st : PQIVFState) (vectors : List (ℤ × List ℚ)) :
    PQIVFState × Option GoErr :=
  let keys := sortSlice (fun a b => decide (a < b)) (vectors.map Prod.fst).eraseDups
  match BulkAddLoop dist vectors keys st [] with
  | (st', _, some e) => (st', some e)
  | (st', updated, none) =>
      (updated.eraseDups.foldl (fun s c => recalcCentroid s c) st', none)

/-- `Delete`: unlink the entry from its inverted list, decrement the cluster
count, drop the id, and recalculate the centroid when the list stays
non-empty. -/
def Delete (st : PQIVFState) (id : ℤ) : PQIVFState × Option GoErr :=
  match (st.idToCluster.lookup id) with
  | none => (st, some .missingId)
  | some cluster =>
      if ¬ alistHas st.invertedLists cluster then (st, some .missingId)
      else
        let entries := alistGet st.invertedLists cluster []
        if ¬ entries.any (fun e => e.id == id) then (st, some .missingId)
        else
          let removed := (entries.filter (fun e => e.id == id)).length
          let newEntries := entries.filter (fun e => ¬ e.id == id)
          let st1 := { st with
            clusterCounts :=
              alistSet st.clusterCounts cluster (alistGet st.clusterCounts cluster 0 - removed),
            invertedLists := alistSet st.invertedLists cluster newEntries,
            idToCluster := st.idToCluster.filter (fun p => ¬ p.1 == id) }
          if 0 < newEntries.length then (recalcCentroid st1 cluster, none) else (st1, none)

/-- `Update` = `Delete` then `Add` (the new vector may land in a different
cluster). -/
def Update (dist : List ℚ → List ℚ → ℚ) (st : PQIVFState) (id : ℤ) (v : List ℚ) :
    PQIVFState × Option GoErr :=
  match Delete st id with
  | (st1, some e) => (st1, some e)
  | (st1, none) => Add dist st1 id v

/-- `BulkUpdate`: update ids in ascending order, stopping at the first
error. -/
def BulkUpdate (dist : List ℚ → List ℚ → ℚ) (st : PQIVFState)
    (updates : List (ℤ × List ℚ)) : PQIVFState × Option GoErr :=
  let keys := sortSlice (fun a b => decide (a < b)) (updates.map Prod.fst).eraseDups
  keys.foldl
    (fun (acc : PQIVFState × Option GoErr) id =>
      match acc with
      | (st', some e) => (st', some e)
      | (st', none) => Update dist st' id (alistGet updates id []))
    (st, none)

/-- One Lloyd iteration of `trainSubquantizer`: assign every sub-vector to its
nearest centroid under `core.Euclidean`, then replace each centroid by the
mean of its members, re-seeding empty clusters from a random sub-vector. -/
def kmeansIterate (data : List (List ℚ)) (centroids : List (List ℚ)) (rng : Rng) :
    List (List ℚ) × Rng :=
  let k := centroids.length
  let clusters := data.foldl
    (fun (cl : List (List (List ℚ))) point =>
      let best := (argminIdx euclideanQ centroids point).1
      if 0 ≤ best then cl.set best.toNat (cl.getD best.toNat [] ++ [point]) else cl)
    (List.replicate k [])
  clusters.enum.foldl
    (fun (acc : List (List ℚ) × Rng) p =>
      if p.2.length = 0 then
        let (j, rng') := acc.2.nextIntn data.length
        (acc.1.set p.1 (data.getD j []), rng')
      else
        (acc.1.set p.1 (vecDivN (sumVecs (data.headD []).length p.2) (p.2.length : ℚ)),
         acc.2))
    (centroids, rng)

/-- `trainSubquantizer`: k-means over the sub-vectors of one subspace.  `none`
models the `no data for subquantizer training` error. -/
def trainSubquantizer (data : List (List ℚ)) (k0 iterations : ℕ) (rng : Rng) :
    Option (List (List ℚ)) × Rng :=
  if data.length = 0 then (none, rng)
  else
    let k := min k0 data.length
    let pr := rng.perm data.length
    let centroids0 := (List.range k).map (fun i => data.getD (pr.1.getD i 0) [])
    let res := (List.range iterations).foldl
      (fun (acc : List (List ℚ) × Rng) _ => kmeansIterate data acc.1 acc.2)
      (centroids0, pr.2)
    (some res.1, res.2)

/-- Re-encode the entries of one cluster with the freshly trained codebooks;
on an encode error the remaining entries keep their old codes, exactly as the
in-place `pq.invertedLists[cluster][j] = entry` loop leaves them. -/
def reencodeEntries (st : PQIVFState) (cluster : ℤ) : List PQEntry → (List PQEntry × Bool)
  | [] => ([], true)
  | e :: es =>
      match encodeVector st e.vector cluster with
      | none => (e :: es, false)
      | some codes =>
          let rest := reencodeEntries st cluster es
          ({ e with codes := some codes } :: rest.1, rest.2)

/-- Re-encode every inverted list (aborting on the first failure). -/
def Reencode (st : PQIVFState) : List (ℤ × List PQEntry) → PQIVFState × Bool
  | [] => (st, true)
  | (c, es) :: rest =>
      let r := reencodeEntries st c es
      let st' := { st with invertedLists := alistSet st.invertedLists c r.1 }
      if r.2 then Reencode st' rest else (st', false)

/-- One step of `Train`'s per-subspace loop: train the next subquantizer and
append its codebook, bailing out once any subspace has failed. -/
def trainStep (pqK iters : ℕ) (acc : Option (List (List (List ℚ))) × Rng)
    (d : List (List ℚ)) : Option (List (List (List ℚ))) × Rng :=
  match acc.1 with
  | none => acc
  | some cbs =>
      match trainSubquantizer d pqK iters acc.2 with
      | (none, rng') => (none, rng')
      | (some cb, rng') => (some (cbs ++ [cb]), rng')

/-- `Train`: build residuals, train one codebook per subspace, install the
codebooks, and re-encode every entry. -/
def Train (st : PQIVFState) (rng : Rng) : PQIVFState × Rng × Option GoErr :=
  if st.invertedLists.length = 0 then (st, rng, some .trainNoData)
  else
    let pairs : List (ℤ × PQEntry) :=
      st.invertedLists.flatMap (fun p => p.2.map (fun e => (p.1, e)))
    if ¬ pairs.all
        (fun p => p.2.vector.length = (listGetI st.coarseCentroids p.1 []).length) then
      (st, rng, some .dimensionMismatch)
    else
      let residuals := pairs.map
        (fun p => vectorSub p.2.vector (listGetI st.coarseCentroids p.1 []))
      let dataPerSub := (List.range st.numSubquantizers).map
        (fun i => residuals.map (fun r => (splitVector r st.numSubquantizers).getD i []))
      let step := dataPerSub.foldl (trainStep st.pqK st.kMeansIters) (some [], rng)
      match step with
      | (none, rng') => (st, rng', some .trainNoData)
      | (some cbs, rng') =>
          let st1 := { st with codebooks := some cbs }
          let re := Reencode st1 st1.invertedLists
          (re.1, rng', if re.2 then none else some .encodeFailed)

/-- Distance used for a candidate entry during `Search`: PQ reconstruction
(coarse centroid plus concatenated codewords) when codes are present and
valid, falling back to the stored vector on any decoding problem. -/
def EntryDist (dist : List ℚ → List ℚ → ℚ) (st : PQIVFState) (q : List ℚ)
    (e : PQEntry) : ℚ :=
  match st.codebooks with
  | none => dist q e.vector
  | some _ =>
      match e.codes with
      | none => dist q e.vector
      | some cs =>
          if cs.length = st.numSubquantizers then
            match decodePQCode st cs with
            | none => dist q e.vector
            | some approxResidual =>
                let cent := listGetI st.coarseCentroids e.cluster []
                if cent.length ≠ approxResidual.length then dist q e.vector
                else dist q (vectorAdd cent approxResidual)
          else dist q e.vector

/-- The cluster-widening loop of `Search`: keep appending further clusters'
lists while the candidate pool is still smaller than `k`. -/
def Widen (st : PQIVFState) (k : ℕ) : List (ℤ × ℚ) → List PQEntry → List PQEntry
  | [], entries => entries
  | c :: cs, entries =>
      if entries.length < k then
        Widen st k cs (entries ++ alistGet st.invertedLists c.1 [])
      else entries

/-- `Search`: score the entries of the nearest coarse clusters (widening, then
falling back to every entry, when the pool is short of `k`), sort by distance
only, and return the first `k`. -/
def Search (dist : List ℚ → List ℚ → ℚ) (st : PQIVFState) (query : List ℚ) (k : ℕ) :
    Except GoErr (List Neighbor) :=
  if query.length ≠ st.dimension then .error .dimensionMismatch
  else if st.invertedLists.length = 0 then .error .emptyIndex
  else
    let centCandidates := nearestCentroids dist st query
    let numCandidates := min st.numCandidateClusters centCandidates.length
    let entries1 := (centCandidates.take numCandidates).flatMap
      (fun c => alistGet st.invertedLists c.1 [])
    let entries2 :=
      if entries1.length < k then Widen st k (centCandidates.drop numCandidates) entries1
      else entries1
    let entries3 :=
      if entries2.length < k then st.invertedLists.flatMap Prod.snd else entries2
    let results := sortSlice (fun a b => decide (a.dist < b.dist))
      (entries3.map (fun e => Neighbor.mk e.id (EntryDist dist st query e)))
    .ok (results.take k)

end pqivf

/-! ## The HNSW engine (package `hnsw`)

Embedding of the full HNSW implementation (`HNSWIndex` and its methods, the
variant with the level cap, level-retaining `Update` and max-level entry-point
promotion).  Go's `*Node` pointers are modelled by node ids resolved against
the node map on every access, so aliased mutation through pointers becomes
re-lookup against the threaded state.  The `Distance` field is the explicit
parameter `dist`. -/

/-- `maxLevelCap`: the upper bound for a node's level. -/
def maxLevelCap : ℤ := 32

/-- `Node`: id, vector, level, and per-level forward/reverse adjacency
(neighbour ids; Go stores `*Node` pointers). -/
structure HNode where
  id : ℤ
  vector : List ℚ
  level : ℤ
  links : List (ℤ × List ℤ)
  reverseLinks : List (ℤ × List ℤ)
  deriving DecidableEq, Repr, Inhabited

/-- `HNSWIndex` (mutex omitted; `Distance` passed explicitly). -/
structure HNSWState where
  dimension : ℕ
  entryPoint : Option ℤ
  maxLevel : ℤ
  nodes : List (ℤ × HNode)
  M : ℕ
  ef : ℕ
  distanceName : String
  exhaustiveSearch : Bool
  deriving DecidableEq, Repr

/-- `serializedNode`: the gob image of a node (neighbour ids per level). -/
structure SerializedNode where
  id : ℤ
  vector : List ℚ
  level : ℤ
  links : List (ℤ × List ℤ)
  deriving DecidableEq, Repr

/-- `serializedIndex`: the gob image of the index.  gob encodes and decodes
this struct bit-faithfully, so the byte stream itself is not modelled. -/
structure SerializedIndex where
  dimension : ℕ
  M : ℕ
  ef : ℕ
  nodes : List (ℤ × SerializedNode)
  entryPoint : ℤ
  maxLevel : ℤ
  distanceName : String
  deriving DecidableEq, Repr

namespace hnsw

/-- Pointer dereference: look a node up by id. -/
def getNode (st : HNSWState) (id : ℤ) : Option HNode := st.nodes.lookup id

/-- Store a (mutated) node back into the node map. -/
def setNode (st : HNSWState) (n : HNode) : HNSWState :=
  { st with nodes := alistSet st.nodes n.id n }

/-- `n.Links[level]` (a missing level reads as the empty slice). -/
def linksAt (n : HNode) (level : ℤ) : List ℤ := alistGet n.links level []

/-- `n.ReverseLinks[level]`. -/
def revLinksAt (n : HNode) (level : ℤ) : List ℤ := alistGet n.reverseLinks level []

/-- `n.Links[level] = v`. -/
def setLinksAt (n : HNode) (level : ℤ) (v : List ℤ) : HNode :=
  { n with links := alistSet n.links level v }

/-- `n.ReverseLinks[level] = v`. -/
def setRevLinksAt (n : HNode) (level : ℤ) (v : List ℤ) : HNode :=
  { n with reverseLinks := alistSet n.reverseLinks level v }

/-- `NewHNSW`. -/
def NewHNSW (dimension M ef : ℕ) (distanceName : String) : HNSWState :=
  { dimension := dimension
    entryPoint := none
    maxLevel := -1
    nodes := []
    M := M
    ef := ef
    distanceName := distanceName
    exhaustiveSearch := false }

/-- Go's `int(x)` conversion from `float64`: truncation toward zero. -/
noncomputable def goTruncInt (x : ℝ) : ℤ := if 0 ≤ x then ⌊x⌋ else -⌊-x⌋

/-- `randomLevel`: `int(-math.Log(r) / math.Log(float64(M)))`, capped at
`maxLevelCap`; `u` is the `seededRand.Float64()` draw. -/
noncomputable def randomLevel (M : ℕ) (u : ℝ) : ℤ :=
  if M ≤ 1 then 0
  else
    let level := goTruncInt (-Real.log u / Real.log (M : ℝ))
    if level > maxLevelCap then maxLevelCap else level

/-- `candidateMinHeap.Less`: distance ascending, ties by id ascending. -/
def candLess (a b : Neighbor) : Bool :=
  if a.dist = b.dist then a.id < b.id else a.dist < b.dist

/-- `candidateMaxHeap.Less`: distance descending, ties by id ascending. -/
def candLessMax (a b : Neighbor) : Bool :=
  if a.dist = b.dist then a.id < b.id else b.dist < a.dist

/-- The body of `searchLayer`'s candidate-expansion loop.  The two
`container/heap` queues are lists kept sorted by their own `Less` with the
root at the head (for the total comparators above this is observationally the
heap exactly); `visited` is the visited-id set.  Each iteration pops the best
unexpanded candidate and relaxes its neighbours at `level`.  `fuel` only
bounds the recursion: every iteration removes one candidate and candidates
are pushed at most once per distinct node, so `st.nodes.length + 1` steps
always reach the empty queue or the break. -/
def searchLayerStep (dist : List ℚ → List ℚ → ℚ) (st : HNSWState) (query : List ℚ)
    (ef : ℕ) (acc : List ℤ × List Neighbor × List Neighbor) (nbId : ℤ) :
    List ℤ × List Neighbor × List Neighbor :=
  if nbId ∈ acc.1 then acc
  else
    let vis' := nbId :: acc.1
    match getNode st nbId with
    | none => (vis', acc.2.1, acc.2.2)
    | some nb =>
        let d := dist query nb.vector
        if acc.2.2.length < ef ∨ d < (acc.2.2.headD default).dist then
          let newCand : Neighbor := ⟨nbId, d⟩
          let cq' := goInsert candLess newCand acc.2.1
          let rq' := goInsert candLessMax newCand acc.2.2
          let rq'' := if rq'.length > ef then rq'.tail else rq'
          (vis', cq', rq'')
        else (vis', acc.2.1, acc.2.2)

/-- The beam loop itself (see the module comment above `searchLayerStep`). -/
def searchLayerLoop (dist : List ℚ → List ℚ → ℚ) (st : HNSWState) (query : List ℚ)
    (level : ℤ) (ef : ℕ) :
    ℕ → List ℤ → List Neighbor → List Neighbor → List Neighbor
  | 0, _, _, resQ => resQ
  | fuel + 1, visited, candQ, resQ =>
      match candQ with
      | [] => resQ
      | current :: candRest =>
          let worst := resQ.headD default
          if current.dist > worst.dist ∧ ¬ st.exhaustiveSearch then resQ
          else
            let node := (getNode st current.id).getD default
            let step := (linksAt node level).foldl (searchLayerStep dist st query ef)
              (visited, candRest, resQ)
            searchLayerLoop dist st query level ef fuel step.1 step.2.1 step.2.2

/-- `searchLayer`: bounded best-first beam at one level, returning the result
pool sorted ascending with the id tie-break. -/
def searchLayer (dist : List ℚ → List ℚ → ℚ) (st : HNSWState) (query : List ℚ)
    (entrypointId : ℤ) (level : ℤ) (ef : ℕ) : List Neighbor :=
  let ep := (getNode st entrypointId).getD default
  let d0 := dist query ep.vector
  let resQ := searchLayerLoop dist st query level ef (st.nodes.length + 1)
    [entrypointId] [⟨entrypointId, d0⟩] [⟨entrypointId, d0⟩]
  sortSlice candLess resQ

/-- One pass of the greedy-descent inner loop: range over the links (of the
node that was `current` when the pass began, exactly as Go's `range` fixes the
slice) and move to any neighbour strictly closer to the query. -/
def greedyPass (dist : List ℚ → List ℚ → ℚ) (st : HNSWState) (query : List ℚ)
    (level : ℤ) (curId : ℤ) : ℤ × Bool :=
  let cur := (getNode st curId).getD default
  (linksAt cur level).foldl
    (fun (acc : ℤ × Bool) nbId =>
      match getNode st nbId with
      | none => acc
      | some nb =>
          let c := (getNode st acc.1).getD default
          if dist query nb.vector < dist query c.vector then (nbId, true) else acc)
    (curId, false)

/-- The `for changed` loop around `greedyPass`.  Each changed pass strictly
decreases the distance of `current` to the query, so at most `st.nodes.length`
passes change anything; the fuel passed by the callers covers that. -/
def greedyLoop (dist : List ℚ → List ℚ → ℚ) (st : HNSWState) (query : List ℚ)
    (level : ℤ) : ℕ → ℤ → ℤ
  | 0, curId => curId
  | fuel + 1, curId =>
      let p := greedyPass dist st query level curId
      if p.2 then greedyLoop dist st query level fuel p.1 else curId

/-- Greedy descent from the entry point down to (and excluding) `target`:
`for L := h.MaxLevel; L > target; L--`. -/
def greedyToLevel (dist : List ℚ → List ℚ → ℚ) (st : HNSWState) (query : List ℚ)
    (startId : ℤ) (target : ℤ) : ℤ :=
  ((List.range ((st.maxLevel - target).toNat)).map (fun i => st.maxLevel - (i : ℤ))).foldl
    (fun cur L => greedyLoop dist st query L (st.nodes.length + 1) cur)
    startId

/-- `selectM`: sort the candidates (distance, then id) and keep the best `M`. -/
def selectM (candidates : List Neighbor) (M : ℕ) : List Neighbor :=
  let sorted := sortSlice candLess candidates
  if sorted.length > M then sorted.take M else sorted

/-- `selectNodes`: best `M` of a list of nodes by distance to `vec` (with the
id tie-break), as ids. -/
def selectNodes (dist : List ℚ → List ℚ → ℚ) (st : HNSWState) (ids : List ℤ)
    (vec : List ℚ) (M : ℕ) : List ℤ :=
  let arr := ids.map
    (fun i => (⟨i, dist vec ((getNode st i).getD default).vector⟩ : Neighbor))
  ((sortSlice candLess arr).take (min arr.length M)).map (fun c => c.id)

/-- `trimNeighborLinks`: cut a node's neighbour list at `level` back to its
best `M`, removing the reverse entries of the dropped edges. -/
def trimNeighborLinks (dist : List ℚ → List ℚ → ℚ) (st : HNSWState) (nId : ℤ)
    (level : ℤ) (M : ℕ) : HNSWState :=
  match getNode st nId with
  | none => st
  | some n =>
      let original := linksAt n level
      let trimmed := selectNodes dist st original n.vector M
      let removed := original.filter (fun r => ¬ trimmed.contains r)
      let st1 := removed.foldl
        (fun s rId =>
          match getNode s rId with
          | none => s
          | some r =>
              setNode s (setRevLinksAt r level
                ((revLinksAt r level).filter (fun x => x ≠ nId))))
        st
      match getNode st1 nId with
      | none => st1
      | some n' => setNode st1 (setLinksAt n' level trimmed)

/-- One write of the incoming-edge pass of `removeNodeLinks`: drop `nId` from
the forward links of `nbId` at level `lvl`. -/
def unlinkInStep (nId lvl : ℤ) (s2 : HNSWState) (nbId : ℤ) : HNSWState :=
  match getNode s2 nbId with
  | none => s2
  | some nb =>
      setNode s2 (setLinksAt nb lvl ((linksAt nb lvl).filter (fun x => x ≠ nId)))

/-- Process one reverse-link entry `(lvl, ids)` of the node being unlinked:
strip the incoming edges it records, then clear the node's own reverse list at
`lvl`. -/
def unlinkInPair (nId : ℤ) (s : HNSWState) (p : ℤ × List ℤ) : HNSWState :=
  let s' := p.2.foldl (unlinkInStep nId p.1) s
  match getNode s' nId with
  | none => s'
  | some cur => setNode s' (setRevLinksAt cur p.1 [])

/-- One write of the outgoing-edge pass: drop `nId` from the reverse links of
`nbId` at level `lvl`. -/
def unlinkOutStep (nId lvl : ℤ) (s2 : HNSWState) (nbId : ℤ) : HNSWState :=
  match getNode s2 nbId with
  | none => s2
  | some nb =>
      setNode s2 (setRevLinksAt nb lvl ((revLinksAt nb lvl).filter (fun x => x ≠ nId)))

/-- Process one forward-link entry `(lvl, ids)` of the node being unlinked:
strip the reverse records of its outgoing edges, then clear its own forward
list at `lvl`. -/
def unlinkOutPair (nId : ℤ) (s : HNSWState) (p : ℤ × List ℤ) : HNSWState :=
  let s' := p.2.foldl (unlinkOutStep nId p.1) s
  match getNode s' nId with
  | none => s'
  | some cur => setNode s' (setLinksAt cur p.1 [])

/-- `removeNodeLinks`: drop every edge incident to `nId` — first the edges of
nodes that point at it (via the reverse-link index), then the reverse entries
of its own forward edges — clearing its own lists level by level. -/
def removeNodeLinks (st : HNSWState) (nId : ℤ) : HNSWState :=
  match getNode st nId with
  | none => st
  | some n =>
      let st1 := n.reverseLinks.foldl (unlinkInPair nId) st
      let n1 := (getNode st1 nId).getD default
      n1.links.foldl (unlinkOutPair nId) st1

/-- `insertNode`: wire a node (already present in the map) into the graph:
promote it to entry point if needed, greedy-descend to its level, then link
level by level, trimming any neighbour that exceeds `M` edges. -/
def insertNode (dist : List ℚ → List ℚ → ℚ) (st : HNSWState) (nId : ℤ)
    (searchEf : ℕ) : HNSWState :=
  match getNode st nId with
  | none => st
  | some n =>
      match st.entryPoint with
      | none => { st with entryPoint := some nId, maxLevel := n.level }
      | some _ =>
          let st0 :=
            if n.level > st.maxLevel then
              { st with entryPoint := some nId, maxLevel := n.level }
            else st
          let epId := st0.entryPoint.getD nId
          let start := greedyToLevel dist st0 n.vector epId n.level
          let m := min n.level st0.maxLevel
          let levels := (List.range ((m + 1).toNat)).map (fun i => m - (i : ℤ))
          let res := levels.foldl
            (fun (acc : HNSWState × ℤ) L =>
              let s := acc.1
              let candList := searchLayer dist s n.vector acc.2 L searchEf
              let selectedIds := (selectM candList s.M).map (fun c => c.id)
              let s1 :=
                match getNode s nId with
                | none => s
                | some cur => setNode s (setLinksAt cur L selectedIds)
              let s2 := selectedIds.foldl
                (fun s' nbId =>
                  match getNode s' nbId with
                  | none => s'
                  | some nb =>
                      let nb2 := setRevLinksAt
                        (setLinksAt nb L (linksAt nb L ++ [nId])) L
                        (revLinksAt nb L ++ [nId])
                      let s'' := setNode s' nb2
                      if (linksAt nb2 L).length > s''.M then
                        trimNeighborLinks dist s'' nbId L s''.M
                      else s'')
                s1
              let cur' := if candList.length > 0 then (candList.headD default).id else acc.2
              (s2, cur'))
            (st0, start)
          res.1

/-- The body of `Add` with the sampled level passed in: validate, normalise on
cosine, store the node at the given level and wire it in.  (`Add` supplies
`randomLevel`'s draw; concrete states below are built through this with
explicit levels, which is exactly the reachable-state set of `Add`.) -/
def addAtLevel (dist : List ℚ → List ℚ → ℚ) (st : HNSWState) (id : ℤ)
    (vector : List ℚ) (level : ℤ) : HNSWState × Option GoErr :=
  if vector.length ≠ st.dimension then (st, some .dimensionMismatch)
  else
    let vector := if st.distanceName = "cosine" then normalizeQ vector else vector
    if (st.nodes.lookup id).isSome then (st, some .duplicateId)
    else
      let newNode : HNode := ⟨id, vector, level, [], []⟩
      let st1 := { st with nodes := alistSet st.nodes id newNode }
      (insertNode dist st1 id st.ef, none)

/-- `Add`: validate, normalise on cosine, sample the level from the supplied
draw, store the node and wire it in. -/
noncomputable def Add (dist : List ℚ → List ℚ → ℚ) (st : HNSWState) (id : ℤ)
    (vector : List ℚ) (u : ℝ) : HNSWState × Option GoErr :=
  addAtLevel dist st id vector (randomLevel st.M u)

/-- One step of `Delete`'s entry-point promotion scan: keep the node of
strictly higher level (the first maximal node under the enumeration wins
ties). -/
def promoteStep (acc : Option HNode) (p : ℤ × HNode) : Option HNode :=
  match acc with
  | none => some p.2
  | some e => if p.2.level > e.level then some p.2 else acc

/-- `Delete`: unlink, remove from the map, and if the removed node was the
entry point promote a remaining node of maximal level (Go scans the node map;
the model scans the association list — the promoted level is the maximum under
any enumeration order). -/
def Delete (st : HNSWState) (id : ℤ) : HNSWState × Option GoErr :=
  match getNode st id with
  | none => (st, some .missingId)
  | some _ =>
      let st1 := removeNodeLinks st id
      let st2 := { st1 with nodes := st1.nodes.filter (fun p => ¬ p.1 == id) }
      if st2.entryPoint = some id then
        let newEp := st2.nodes.foldl promoteStep none
        ({ st2 with entryPoint := newEp.map (fun e => e.id) }, none)
      else (st2, none)

/-- `Update`: validate, normalise on cosine, strip the node's edges, replace
its vector — keeping its `Level` — and re-insert it. -/
def Update (dist : List ℚ → List ℚ → ℚ) (st : HNSWState) (id : ℤ)
    (vector : List ℚ) : HNSWState × Option GoErr :=
  match getNode st id with
  | none => (st, some .missingId)
  | some node =>
      if vector.length ≠ st.dimension then (st, some .dimensionMismatch)
      else
        let vector := if st.distanceName = "cosine" then normalizeQ vector else vector
        let st1 := removeNodeLinks st id
        let node1 : HNode := { node with vector := vector, links := [], reverseLinks := [] }
        let st2 := setNode st1 node1
        (insertNode dist st2 id st.ef, none)

/-- One bounded-max-heap accumulation step of the fallback scan: push while
below capacity, otherwise evict the root when the candidate improves on it. -/
def fallbackHeapStep (fallbackSize : ℕ) (h : List Neighbor) (cand : Neighbor) :
    List Neighbor :=
  if h.length < fallbackSize then goInsert candLessMax cand h
  else if 0 < h.length ∧ cand.dist < (h.headD default).dist then
    goInsert candLessMax cand h.tail
  else h

/-- `Search`: greedy-descend to level 1, beam at level 0, and if the pool is
short of `k`, scan every remaining node in parallel chunks through bounded
max-heaps, merge, and re-sort.  `numWorkers` is `runtime.NumCPU()`.  The two
`panic...` outcomes are the Go runtime faults of the fallback path: a division
by zero when every node is already in the pool, and an out-of-range chunk
slice when `(nw-1)·chunkSize` overshoots the slice. -/
def Search (dist : List ℚ → List ℚ → ℚ) (st : HNSWState) (query0 : List ℚ)
    (k : ℕ) (numWorkers : ℕ) : Except GoErr (List Neighbor) :=
  if query0.length ≠ st.dimension then .error .dimensionMismatch
  else
    match st.entryPoint with
    | none => .error .emptyIndex
    | some epId =>
        let query := if st.distanceName = "cosine" then normalizeQ query0 else query0
        let current := greedyToLevel dist st query epId 0
        let candidates := searchLayer dist st query current 0 st.ef
        if candidates.length < k then
          let candidateIDs := candidates.map (fun c => c.id)
          let fallbackSize := k - candidates.length
          let keys := sortSlice (fun a b => decide (a < b)) (st.nodes.map Prod.fst)
          let nodesSlice := keys.filter (fun i => ¬ candidateIDs.contains i)
          let nw := min numWorkers nodesSlice.length
          if nw = 0 then .error .panicDivZero
          else
            let chunkSize := (nodesSlice.length + nw - 1) / nw
            if nodesSlice.length < (nw - 1) * chunkSize then .error .panicSliceBounds
            else
              let chunks := (List.range nw).map
                (fun i => (nodesSlice.drop (i * chunkSize)).take chunkSize)
              let localHeaps := chunks.map
                (fun chunk =>
                  chunk.foldl
                    (fun lh nbId =>
                      let nd := (getNode st nbId).getD default
                      fallbackHeapStep fallbackSize lh ⟨nbId, dist query nd.vector⟩)
                    [])
              let finalHeap := localHeaps.foldl
                (fun fh lh => lh.foldl (fallbackHeapStep fallbackSize) fh) []
              let cands2 := sortSlice candLess (candidates ++ finalHeap)
              .ok (cands2.take k)
        else .ok (candidates.take k)

/-- `GobEncode`: flatten to the serialisable image.  The entry-point id field
defaults to `0` and is overwritten with the real id only when an entry point
exists — the encoding cannot distinguish "no entry point" from "entry point
with id 0". -/
def GobEncode (st : HNSWState) : SerializedIndex :=
  { dimension := st.dimension
    M := st.M
    ef := st.ef
    nodes := st.nodes.map
      (fun p => (p.1, SerializedNode.mk p.2.id p.2.vector p.2.level p.2.links))
    entryPoint := st.entryPoint.getD 0
    maxLevel := st.maxLevel
    distanceName := st.distanceName }

/-- `GobDecode`: rebuild nodes, then forward links (dropping targets that do
not exist), then reverse links; restore the entry point only when the stored
id is non-zero. -/
def GobDecode (si : SerializedIndex) : HNSWState :=
  let keys := si.nodes.map Prod.fst
  let base : List (ℤ × HNode) := si.nodes.map
    (fun p => (p.1, HNode.mk p.2.id p.2.vector p.2.level [] []))
  let withLinks : List (ℤ × HNode) := base.map
    (fun p =>
      match si.nodes.lookup p.1 with
      | none => p
      | some sn =>
          (p.1, { p.2 with
            links := sn.links.foldl
              (fun acc lv =>
                lv.2.foldl
                  (fun a t =>
                    if keys.contains t then alistSet a lv.1 (alistGet a lv.1 [] ++ [t])
                    else a)
                  acc)
              [] }))
  let withRev : List (ℤ × HNode) := withLinks.foldl
    (fun ns p =>
      p.2.links.foldl
        (fun ns2 lv =>
          lv.2.foldl
            (fun ns3 t =>
              ns3.map (fun q =>
                if q.1 == t then
                  (q.1, setRevLinksAt q.2 lv.1 (revLinksAt q.2 lv.1 ++ [p.1]))
                else q))
            ns2)
        ns)
    withLinks
  { dimension := si.dimension
    entryPoint :=
      if si.entryPoint ≠ 0 ∧ keys.contains si.entryPoint then some si.entryPoint
      else none
    maxLevel := si.maxLevel
    nodes := withRev
    M := si.M
    ef := si.ef
    distanceName := si.distanceName
    exhaustiveSearch := false }

end hnsw

/-! ## The RPT engine (package `rpt`)

Embedding of the random-projection-tree index of this repository (the variant
with configurable leaf capacity and a jittered split threshold).  The global
`rand.Shuffle` that permutes the ids before a build is modelled by an explicit
`shuffle` function (theorems only assume it permutes its input), and
`rand.New(rand.NewSource(seed))` by the `mkRng` parameter. -/

/-- `treeNode`: leaf of point ids, or internal split node. -/
inductive TreeNode where
  | leaf (points : List ℤ)
  | node (projection : List ℚ) (threshold : ℚ) (left right : TreeNode)
  deriving DecidableEq, Repr, Inhabited

/-- `RPTIndex` (mutex omitted; `Distance` is pinned to `core.Euclidean` by the
constructor and passed explicitly). -/
structure RPTState where
  dimension : ℕ
  points : List (ℤ × List ℚ)
  tree : Option TreeNode
  dirty : Bool
  distanceName : String
  leafCapacity : ℕ
  candidateProjections : ℕ
  parallelThreshold : ℕ
  probeMargin : ℚ
  deriving DecidableEq, Repr

namespace rpt

/-- `NewRPTIndex`. -/
def NewRPTIndex (dimension leafCapacity candidateProjections parallelThreshold : ℕ)
    (probeMargin : ℚ) : RPTState :=
  { dimension := dimension
    points := []
    tree := none
    dirty := true
    distanceName := "euclidean"
    leafCapacity := leafCapacity
    candidateProjections := candidateProjections
    parallelThreshold := parallelThreshold
    probeMargin := probeMargin }

/-- Dot product (the inline projection loops). -/
def dotQ (a b : List ℚ) : ℚ := (List.zipWith (· * ·) a b).sum

/-- One candidate split of `buildTreeRecursive`'s trial loop. -/
structure SplitCandidate where
  proj : List ℚ
  threshold : ℚ
  leftIDs : List ℤ
  rightIDs : List ℤ
  imbalance : ℕ
  deriving DecidableEq, Repr

/-- Draw a random vector in `[-1,1)^dim` and L2-normalise it (substituting
norm 1 when the norm is numerically zero, `< 1e-8`). -/
def randProj (dimension : ℕ) (rng : Rng) : List ℚ × Rng :=
  let gen := (List.range dimension).foldl
    (fun (acc : List ℚ × Rng) _ =>
      let fr := acc.2.nextFloat
      (acc.1 ++ [fr.1 * 2 - 1], fr.2))
    ([], rng)
  let norm0 := ratSqrt (sumSq gen.1)
  let norm := if norm0 < 1 / 100000000 then 1 else norm0
  (gen.1.map (fun x => x / norm), gen.2)

/-- The squared-distance maximum used for the jitter scale: pick the maximum
over `ids` of the squared distance from `x`. -/
def maxSqDist (pts : List (ℤ × List ℚ)) (x : List ℚ) (ids : List ℤ) : ℚ :=
  ids.foldl
    (fun m id =>
      let y := alistGet pts id []
      let d := sumSq (vectorSub x y)
      if d > m then d else m)
    0

/-- One trial of the candidate-projection loop: project, sort, take the median
projection value, add the jitter `(Float64()*2-1) * 6 * maxDist / sqrt dim`,
split around the jittered threshold, and fall back to an even index-order
split when one side comes out empty. -/
def splitTrial (pts : List (ℤ × List ℚ)) (dimension : ℕ) (ids : List ℤ) (rng : Rng) :
    SplitCandidate × Rng :=
  let pr := randProj dimension rng
  let proj := pr.1
  let pairs := sortSlice (fun (a b : ℤ × ℚ) => decide (a.2 < b.2))
    (ids.map (fun id => (id, dotQ (alistGet pts id []) proj)))
  let mid := pairs.length / 2
  let draw := pr.2.nextIntn ids.length
  let x := alistGet pts (ids.getD draw.1 0) []
  let maxDist := ratSqrt (maxSqDist pts x ids)
  let fr := draw.2.nextFloat
  let jitter := (fr.1 * 2 - 1) * 6 * maxDist / ratSqrt (dimension : ℚ)
  let threshold := (pairs.getD mid (0, 0)).2 + jitter
  let leftIDs := (pairs.filter (fun p => p.2 < threshold)).map Prod.fst
  let rightIDs := (pairs.filter (fun p => ¬ p.2 < threshold)).map Prod.fst
  let split :=
    if leftIDs.length = 0 ∨ rightIDs.length = 0 then
      (ids.take (ids.length / 2), ids.drop (ids.length / 2))
    else (leftIDs, rightIDs)
  ({ proj := proj
     threshold := threshold
     leftIDs := split.1
     rightIDs := split.2
     imbalance := ((split.1.length : ℤ) - (split.2.length : ℤ)).natAbs }, fr.2)

/-- Run the `candidateProjections` trials and keep the first candidate with
the minimum imbalance (`none` only when no trial runs; the Go code would then
dereference a nil pointer, which no configuration used here reaches). -/
def chooseSplit (pts : List (ℤ × List ℚ)) (dimension candidateProjections : ℕ)
    (ids : List ℤ) (rng : Rng) : Option SplitCandidate × Rng :=
  (List.range candidateProjections).foldl
    (fun (acc : Option SplitCandidate × Rng) _ =>
      let tr := splitTrial pts dimension ids acc.2
      match acc.1 with
      | none => (some tr.1, tr.2)
      | some best =>
          (if tr.1.imbalance < best.imbalance then some tr.1 else some best, tr.2))
    (none, rng)

/-- `buildTreeRecursive`.  Above `parallelThreshold` the children are built
concurrently, each with a fresh source seeded `GetSeed()+1` / `GetSeed()+2`,
exactly as in the source.  The fuel only bounds the recursion depth: both
children of a split are strictly smaller, so `ids.length + 1` always
suffices when `leafCapacity ≥ 1`. -/
def buildTreeRecursive (pts : List (ℤ × List ℚ)) (dimension : ℕ)
    (leafCapacity candidateProjections parallelThreshold : ℕ)
    (seed : ℤ) (mkRng : ℤ → Rng) :
    ℕ → List ℤ → Rng → TreeNode × Rng
  | 0, ids, rng => (.leaf ids, rng)
  | fuel + 1, ids, rng =>
      if ids.length ≤ leafCapacity then (.leaf ids, rng)
      else
        match chooseSplit pts dimension candidateProjections ids rng with
        | (none, rng') => (.leaf ids, rng')
        | (some best, rng') =>
            if parallelThreshold < ids.length then
              let l := buildTreeRecursive pts dimension leafCapacity
                candidateProjections parallelThreshold seed mkRng fuel
                best.leftIDs (mkRng (seed + 1))
              let r := buildTreeRecursive pts dimension leafCapacity
                candidateProjections parallelThreshold seed mkRng fuel
                best.rightIDs (mkRng (seed + 2))
              (.node best.proj best.threshold l.1 r.1, rng')
            else
              let l := buildTreeRecursive pts dimension leafCapacity
                candidateProjections parallelThreshold seed mkRng fuel
                best.leftIDs rng'
              let r := buildTreeRecursive pts dimension leafCapacity
                candidateProjections parallelThreshold seed mkRng fuel
                best.rightIDs l.2
              (.node best.proj best.threshold l.1 r.1, r.2)

/-- `buildTree`: shuffle the ids (global PRNG, passed as `shuffle`), build
with a source seeded from the configured seed, clear `dirty`. -/
def buildTree (st : RPTState) (shuffle : List ℤ → List ℤ) (seed : ℤ)
    (mkRng : ℤ → Rng) : RPTState :=
  let ids := shuffle (st.points.map Prod.fst)
  let t := buildTreeRecursive st.points st.dimension st.leafCapacity
    st.candidateProjections st.parallelThreshold seed mkRng
    (ids.length + 1) ids (mkRng seed)
  { st with tree := some t.1, dirty := false }

/-- `searchTreeMultiProbeWithMargin` on a non-nil node: probe both children
when the projection falls within `margin` of the threshold. -/
def searchTree (query : List ℚ) (margin : ℚ) : TreeNode → List ℤ
  | .leaf pts => pts
  | .node proj thr l r =>
      let dot := dotQ query proj
      if |dot - thr| < margin then
        searchTree query margin l ++ searchTree query margin r
      else if dot < thr then searchTree query margin l
      else searchTree query margin r

/-- `unionInts`: deduplicating union.  Go returns the ids in map-iteration
order; the model keeps first occurrences in input order, one admissible
enumeration, and nothing proved below depends on it. -/
def unionInts (a b : List ℤ) : List ℤ := (a ++ b).eraseDups

/-- `computeDistances`: distance from the query to every listed id.  The Go
code chunks the work across CPUs, but every worker writes `neighbors[j]` for
its own disjoint `j` range, so the result is this map. -/
def computeDistances (dist : List ℚ → List ℚ → ℚ) (st : RPTState) (query : List ℚ)
    (ids : List ℤ) : List Neighbor :=
  ids.map (fun id => ⟨id, dist query (alistGet st.points id [])⟩)

/-- `Search`: rebuild when dirty, multi-probe (widened once when the candidate
pool holds fewer than `2k` ids), score, fall back to the remaining points when
still short of `k`, sort by distance only, take `k`.  Returns the result and
the possibly rebuilt state. -/
def Search (dist : List ℚ → List ℚ → ℚ) (st : RPTState) (query0 : List ℚ) (k : ℕ)
    (shuffle : List ℤ → List ℤ) (seed : ℤ) (mkRng : ℤ → Rng) :
    Except GoErr (List Neighbor) × RPTState :=
  if query0.length ≠ st.dimension then (.error .dimensionMismatch, st)
  else if st.points.length = 0 then (.error .emptyIndex, st)
  else
    let query := query0
    let st1 := if st.dirty then buildTree st shuffle seed mkRng else st
    let probe := fun (margin : ℚ) =>
      match st1.tree with
      | none => []
      | some t => searchTree query margin t
    let candidateIDs0 := probe st1.probeMargin
    let candidateIDs :=
      if candidateIDs0.length < k * 2 then
        unionInts candidateIDs0 (probe (st1.probeMargin * 2))
      else candidateIDs0
    let neighbors0 := computeDistances dist st1 query candidateIDs
    let neighbors :=
      if neighbors0.length < k then
        neighbors0 ++ computeDistances dist st1 query
          ((st1.points.map Prod.fst).filter (fun id => ¬ candidateIDs.contains id))
      else neighbors0
    let sorted := sortSlice (fun (a b : Neighbor) => decide (a.dist < b.dist)) neighbors
    (.ok (sorted.take k), st1)

/-- `Add`: store the point (the slice itself — no copy) and mark dirty. -/
def Add (st : RPTState) (id : ℤ) (vector : List ℚ) : RPTState × Option GoErr :=
  if vector.length ≠ st.dimension then (st, some .dimensionMismatch)
  else if alistHas st.points id then (st, some .duplicateId)
  else ({ st with points := alistSet st.points id vector, dirty := true }, none)

/-- `Delete`. -/
def Delete (st : RPTState) (id : ℤ) : RPTState × Option GoErr :=
  if ¬ alistHas st.points id then (st, some .missingId)
  else ({ st with points := st.points.filter (fun p => ¬ p.1 == id), dirty := true }, none)

end rpt

/-! ## The by-reference ingress model (claim C9)

Go slices are references into a backing store.  To reason about aliasing
between the caller's vector and what an engine stores, the `Add` paths are
repeated here over an explicit `Store`, with vectors referred to by address.
Only the vector-handling part of each `Add` is by-reference here: the graph /
cluster / tree bookkeeping that follows reads vectors but never writes a
vector cell nor re-binds a stored reference, so it cannot affect aliasing. -/

/-- Addresses into the slice store. -/
abbrev Addr := ℕ

/-- The backing store of live `[]float32` slices. -/
abbrev Store := List (List ℚ)

/-- Read the slice behind an address. -/
def storeGet (σ : Store) (a : Addr) : List ℚ := σ.getD a []

/-- Overwrite the slice behind an address (what in-place mutation through any
alias does). -/
def storeSet (σ : Store) (a : Addr) (v : List ℚ) : Store := σ.set a v

/-- HNSW, by reference: node id ↦ address of its `Vector`. -/
structure HNSWRefState where
  dimension : ℕ
  distanceName : String
  nodes : List (ℤ × Addr)
  deriving DecidableEq, Repr

/-- `hnsw.Add`, vector handling by reference: the dimension check, then — on
cosine — `core.NormalizeVector(vector)` *in place on the caller's slice*
(before the duplicate check), then the duplicate check, then the new node
keeps the caller's slice as its `Vector`. -/
def hnswAddRef (σ : Store) (st : HNSWRefState) (id : ℤ) (a : Addr) :
    Store × HNSWRefState × Option GoErr :=
  if (storeGet σ a).length ≠ st.dimension then (σ, st, some .dimensionMismatch)
  else
    let σ1 :=
      if st.distanceName = "cosine" then storeSet σ a (normalizeQ (storeGet σ a))
      else σ
    if alistHas st.nodes id then (σ1, st, some .duplicateId)
    else (σ1, { st with nodes := alistSet st.nodes id a }, none)

/-- PQIVF, by reference: entry id ↦ address of its `Vector`;
`centroidAddrs` are the addresses of the coarse centroids. -/
structure PQRefState where
  dimension : ℕ
  coarseK : ℕ
  centroidAddrs : List Addr
  entries : List (ℤ × Addr)
  deriving DecidableEq, Repr

/-- `pqivf.Add`, vector handling by reference: a new coarse centroid is a
*fresh copy* (`make` + `copy`), `recalcCentroid` allocates a fresh mean slice,
but the entry appended to the inverted list keeps the caller's slice. -/
def pqivfAddRef (σ : Store) (st : PQRefState) (id : ℤ) (a : Addr) :
    Store × PQRefState × Option GoErr :=
  if (storeGet σ a).length ≠ st.dimension then (σ, st, some .dimensionMismatch)
  else if alistHas st.entries id then (σ, st, some .duplicateId)
  else
    let alloc :=
      if st.centroidAddrs.length < st.coarseK then
        (σ ++ [storeGet σ a], st.centroidAddrs ++ [σ.length])
      else (σ, st.centroidAddrs)
    -- recalcCentroid: a fresh slice replaces the centroid address; the value is
    -- irrelevant to aliasing and elided here (the full value model is `pqivf.Add`)
    let σ2 := alloc.1 ++ [[]]
    let cents := alloc.2
    (σ2, { st with centroidAddrs := cents, entries := alistSet st.entries id a }, none)

/-- RPT, by reference: `r.points[id] = vector` keeps the caller's slice. -/
structure RPTRefState where
  dimension : ℕ
  points : List (ℤ × Addr)
  dirty : Bool
  deriving DecidableEq, Repr

/-- `rpt.Add`, by reference (this variant has no cosine ingress). -/
def rptAddRef (σ : Store) (st : RPTRefState) (id : ℤ) (a : Addr) :
    Store × RPTRefState × Option GoErr :=
  if (storeGet σ a).length ≠ st.dimension then (σ, st, some .dimensionMismatch)
  else if alistHas st.points id then (σ, st, some .duplicateId)
  else (σ, { st with points := alistSet st.points id a, dirty := true }, none)

/-- What the index reads back for a stored id, through the store. -/
def hnswNodeVector (σ : Store) (st : HNSWRefState) (id : ℤ) : Option (List ℚ) :=
  (st.nodes.lookup id).map (storeGet σ)

/-- What the PQIVF index reads back for a stored id. -/
def pqivfEntryVector (σ : Store) (st : PQRefState) (id : ℤ) : Option (List ℚ) :=
  (st.entries.lookup id).map (storeGet σ)

/-- What the RPT index reads back for a stored id. -/
def rptPointVector (σ : Store) (st : RPTRefState) (id : ℤ) : Option (List ℚ) :=
  (st.points.lookup id).map (storeGet σ)

/-! ## Predicates and instrumentation used by the theorems -/

namespace hnsw

/-- The level recorded for a stored node. -/
def nodeLevel (st : HNSWState) (id : ℤ) : Option ℤ :=
  (getNode st id).map (fun n => n.level)

/-- The vector recorded for a stored node. -/
def nodeVector (st : HNSWState) (id : ℤ) : Option (List ℚ) :=
  (getNode st id).map (fun n => n.vector)

/-- The link-independent core of a stored node: its id, vector and level. -/
def nodeCore (st : HNSWState) (id : ℤ) : Option (ℤ × List ℚ × ℤ) :=
  (getNode st id).map (fun n => (n.id, n.vector, n.level))

/-- Node-map well-formedness: keys are distinct and each node records its own
key as its id (both hold on every state the constructors and mutators build
from an empty index). -/
def KeysWF (st : HNSWState) : Prop :=
  (st.nodes.map Prod.fst).Nodup ∧ ∀ p ∈ st.nodes, p.2.id = p.1

/-- The graph-wiring mutators only rewire links: the state stays well-formed
and every stored node keeps the id, vector and level it has in `s0`. -/
def CoreInv (s0 t : HNSWState) : Prop :=
  KeysWF t ∧ ∀ k, nodeCore t k = nodeCore s0 k

/-- Every edge into `id` is recorded in `n`'s reverse-link index (`n` being
the node stored at `id`): the invariant `removeNodeLinks` relies on to find
all incident edges. -/
def IncomingRecorded (st : HNSWState) (id : ℤ) (n : HNode) : Prop :=
  ∀ p ∈ st.nodes, ∀ pr ∈ p.2.links, id ∈ pr.2 → p.1 ∈ revLinksAt n pr.1

/-- No node other than `id` itself holds a forward edge to `id` at any level:
what `removeNodeLinks` leaves behind. -/
def NoIncoming (st : HNSWState) (id : ℤ) : Prop :=
  ∀ q ∈ st.nodes, q.1 ≠ id → ∀ L : ℤ, id ∉ linksAt q.2 L

/-- The state `t` holds an edge `q →L id` only where `s` already did: the
unlink folds only ever shrink forward-link lists. -/
def EdgeShrink (id : ℤ) (s t : HNSWState) : Prop :=
  ∀ q m L, getNode t q = some m → id ∈ linksAt m L →
    ∃ m0, getNode s q = some m0 ∧ id ∈ linksAt m0 L

/-- The node stored at `q` (if any) has no forward edge to `id` at level `L`. -/
def CleanAt (st : HNSWState) (id q L : ℤ) : Prop :=
  ∀ m, getNode st q = some m → id ∉ linksAt m L

end hnsw

namespace pqivf

/-- Inverted-list well-formedness: distinct cluster keys, all within the range
of the coarse-centroid table. -/
def KeysWF (st : PQIVFState) : Prop :=
  (st.invertedLists.map Prod.fst).Nodup ∧
    ∀ p ∈ st.invertedLists, 0 ≤ p.1 ∧ p.1 < (st.coarseCentroids.length : ℤ)

/-- Codebook shape left behind by a successful `Train`: one codebook per
subquantizer, none larger than `pqK`. -/
def BooksWF (st : PQIVFState) : Prop :=
  ∀ cbs, st.codebooks = some cbs →
    cbs.length = st.numSubquantizers ∧ ∀ b ∈ cbs, b.length ≤ st.pqK

/-- A well-coded entry: a code tuple of exactly `numSubquantizers` indices,
each inside `[0, pqK)`. -/
def GoodEntry (numSub pqK : ℕ) (e : PQEntry) : Prop :=
  ∃ cs, e.codes = some cs ∧ cs.length = numSub ∧ ∀ c ∈ cs, c < pqK

/-- The claimed invariant: once codebooks are set, every stored entry is
well-coded. -/
def CodesWF (st : PQIVFState) : Prop :=
  st.codebooks ≠ none →
    ∀ p ∈ st.invertedLists, ∀ e ∈ p.2, GoodEntry st.numSubquantizers st.pqK e

/-- The mutators claim C6 quantifies over. -/
inductive PQOp where
  | add (id : ℤ) (v : List ℚ)
  | bulkAdd (vectors : List (ℤ × List ℚ))
  | delete (id : ℤ)
  | update (id : ℤ) (v : List ℚ)

/-- Run one mutator, keeping whatever state it leaves behind (also on an
error return, matching the in-place mutation of the Go receiver). -/
def applyOp (dist : List ℚ → List ℚ → ℚ) (st : PQIVFState) : PQOp → PQIVFState
  | .add id v => (Add dist st id v).1
  | .bulkAdd vectors => (BulkAdd dist st vectors).1
  | .delete id => (Delete st id).1
  | .update id v => (Update dist st id v).1

/-- Run a sequence of mutators. -/
def applyOps (dist : List ℚ → List ℚ → ℚ) (st : PQIVFState) (ops : List PQOp) :
    PQIVFState :=
  ops.foldl (applyOp dist) st

end pqivf

namespace rpt

end rpt

/-- The threshold the specification prescribes for an RPT split, stated from
its words: "Compute each id's projection (dot product with the unit vector),
sort.  Choose the median projection value as the threshold." -/
def specMedianProjection (pts : List (ℤ × List ℚ)) (proj : List ℚ) (ids : List ℤ) : ℚ :=
  (sortSlice (fun (a b : ℚ) => decide (a < b))
    (ids.map (fun id => rpt.dotQ (alistGet pts id []) proj))).getD (ids.length / 2) 0

/-! ### Concrete states used by the closed theorems

Each is reachable by the verbatim operation sequence recorded in its
definition. -/

/-- PQIVF (D=1, coarseK=1, 1 subquantizer): two clean inserts. -/
def pqStTwo : PQIVFState :=
  (pqivf.Add euclideanQ ((pqivf.Add euclideanQ
    (pqivf.NewPQIVFIndex 1 1 1 8 5) 1 [0]).1) 3 [0]).1

/-- ... then a `BulkAdd` that commits id 2 and fails on the duplicate id 3,
skipping the deferred centroid recalculation. -/
def pqStStale : PQIVFState :=
  (pqivf.BulkAdd euclideanQ pqStTwo [(2, [4]), (3, [9])]).1

/-- PQIVF state for the C4 witness: two inserts, centroid equal to the mean. -/
def pqStMean : PQIVFState :=
  (pqivf.Add euclideanQ ((pqivf.Add euclideanQ
    (pqivf.NewPQIVFIndex 1 1 1 8 5) 1 [0]).1) 3 [4]).1

/-- HNSW (D=1, M=5, ef=10, euclidean) holding the single node id 0 — the
entry point therefore has id 0. -/
def hnswStZero : HNSWState :=
  (hnsw.addAtLevel euclideanQ (hnsw.NewHNSW 1 5 10 "euclidean") 0 [1] 0).1

/-- The same single-node index with the node keyed `5` instead of `0`. -/
def hnswStFive : HNSWState :=
  (hnsw.addAtLevel euclideanQ (hnsw.NewHNSW 1 5 10 "euclidean") 5 [1] 0).1

/-- HNSW (D=1, M=5, ef=10, euclidean) after `Add(0, [1]); Add(1, [3])`, both
nodes at level 0: node 0 holds the edge `0 → 1` gained when node 1 was
inserted, but node 1's reverse-link index is empty — `insertNode` never
mirrors a new node's incoming edges into its own `ReverseLinks`. -/
def hnswStTwo : HNSWState :=
  (hnsw.addAtLevel euclideanQ ((hnsw.addAtLevel euclideanQ
    (hnsw.NewHNSW 1 5 10 "euclidean") 0 [1] 0).1) 1 [3] 0).1

/-- HNSW with three nodes (levels 0,0,1), built by the `Add` path. -/
def hnswStThree : HNSWState :=
  (hnsw.addAtLevel euclideanQ ((hnsw.addAtLevel euclideanQ ((hnsw.addAtLevel euclideanQ
    (hnsw.NewHNSW 1 5 10 "euclidean") 0 [1] 0).1) 1 [3] 0).1) 2 [7] 1).1

/-- RPT over two 1-dimensional points. -/
def rptStTwo : RPTState :=
  (rpt.Add ((rpt.Add (rpt.NewRPTIndex 1 1 1 100 (15/100)) 1 [0]).1) 2 [3]).1

/-- A deterministic stream for the concrete RPT builds: float draws `1/2`
(a numerically-zero projection, replaced by the safe substitute) then `3/4`,
integer draw `0`. -/
def rngC5 : ℤ → Rng := fun _ => ⟨[1/2, 3/4], [0]⟩

/-- A deterministic stream for the concrete `Train` run (every draw reads the
stream defaults). -/
def rngTrain : Rng := ⟨[], []⟩

/-- A concrete mutator sequence: an insert, a delete and an update. -/
def opsC6 : List pqivf.PQOp := [.add 9 [2], .delete 1, .update 3 [6]]

/-! ## Theorems -/

/-! ### Library lemmas about the Go sorting and scanning primitives -/

theorem goInsert_perm (less : α → α → Bool) (x : α) (l : List α) :
    List.Perm (goInsert less x l) (x :: l) := by
  induction l with
  | nil => exact List.Perm.refl _
  | cons y ys ih =>
      unfold goInsert
      by_cases h : less x y
      · simp [h]
      · simp only [h, Bool.false_eq_true, if_false]
        exact (List.Perm.cons y ih).trans (List.Perm.swap x y ys)

theorem sortSlice_perm (less : α → α → Bool) (l : List α) :
    List.Perm (sortSlice less l) l := by
  suffices h : ∀ acc : List α,
      List.Perm (l.foldl (fun acc x => goInsert less x acc) acc) (acc ++ l) by
    simpa using h []
  induction l with
  | nil => intro acc; simp
  | cons x xs ih =>
      intro acc
      simp only [List.foldl_cons]
      refine (ih (goInsert less x acc)).trans ?_
      have h1 : List.Perm (goInsert less x acc ++ xs) ((x :: acc) ++ xs) :=
        (goInsert_perm less x acc).append_right xs
      refine h1.trans ?_
      simp only [List.cons_append]
      exact List.Perm.symm List.perm_middle

theorem goInsert_sorted {less : α → α → Bool} (hc : StrictCmp less) (x : α) (l : List α)
    (hl : l.Pairwise (fun a b => less b a = false)) :
    (goInsert less x l).Pairwise (fun a b => less b a = false) := by
  induction l with
  | nil => simp [goInsert]
  | cons y ys ih =>
      rcases List.pairwise_cons.mp hl with ⟨hy, hys⟩
      unfold goInsert
      by_cases h : less x y
      · simp only [h, if_true]
        refine List.pairwise_cons.mpr ⟨?_, List.pairwise_cons.mpr ⟨hy, hys⟩⟩
        intro z hz
        rcases List.mem_cons.mp hz with hz | hz
        · rw [hz]; exact hc.2 x y h
        · -- less z x would give less z y via transitivity, contradicting sortedness
          by_contra hzx
          have hzx' : less z x = true := by
            cases hzy : less z x with
            | false => exact absurd hzy hzx
            | true => rfl
          have h1 : less z y = true := hc.1 z x y hzx' h
          have h2 : less z y = false := hy z hz
          rw [h2] at h1
          exact absurd h1 (by decide)
      · simp only [h, Bool.false_eq_true, if_false]
        refine List.pairwise_cons.mpr ⟨?_, ih hys⟩
        intro z hz
        have hzm := (goInsert_perm less x ys).mem_iff.mp hz
        rcases List.mem_cons.mp hzm with hz' | hz'
        · rw [hz']
          cases hxy : less x y with
          | false => rfl
          | true => exact absurd hxy h
        · exact hy z hz'

theorem sortSlice_sorted {less : α → α → Bool} (hc : StrictCmp less) (l : List α) :
    (sortSlice less l).Pairwise (fun a b => less b a = false) := by
  suffices h : ∀ acc : List α, acc.Pairwise (fun a b => less b a = false) →
      (l.foldl (fun acc x => goInsert less x acc) acc).Pairwise
        (fun a b => less b a = false) by
    exact h [] (by simp)
  induction l with
  | nil => intro acc hacc; simpa using hacc
  | cons x xs ih =>
      intro acc hacc
      exact ih (goInsert less x acc) (goInsert_sorted hc x acc hacc)

theorem argminScan_bounds (d : List ℚ → List ℚ → ℚ) (x : List ℚ) :
    ∀ (cs : List (List ℚ)) (i : ℕ) (acc : ℤ × Option ℚ),
      0 ≤ acc.1 → acc.1 < (i : ℤ) → acc.2 ≠ none →
      0 ≤ (argminScan d x cs i acc).1 ∧
        (argminScan d x cs i acc).1 < (i : ℤ) + cs.length ∧
        (argminScan d x cs i acc).2 ≠ none := by
  intro cs
  induction cs with
  | nil =>
      intro i acc h0 h1 h2
      simpa [argminScan] using ⟨h0, h1.trans_le (by simp), h2⟩
  | cons c cs ih =>
      intro i acc h0 h1 h2
      simp only [argminScan]
      rcases hacc : acc.2 with _ | bd
      · exact absurd hacc h2
      · simp only [hacc]
        by_cases hlt : d x c < bd
        · simp only [hlt, if_true]
          have := ih (i + 1) ((i : ℤ), some (d x c)) (by positivity) (by push_cast; omega)
            (by simp)
          refine ⟨this.1, ?_, this.2.2⟩
          have h3 := this.2.1
          simp only [List.length_cons]
          push_cast at h3 ⊢
          omega
        · simp only [hlt, if_false]
          have := ih (i + 1) acc h0 (by push_cast at h1 ⊢; omega) h2
          refine ⟨this.1, ?_, this.2.2⟩
          have h3 := this.2.1
          simp only [List.length_cons]
          push_cast at h3 ⊢
          omega

/-- On a non-empty candidate list the scan picks an in-range index. -/
theorem argminIdx_bounds (d : List ℚ → List ℚ → ℚ) (cands : List (List ℚ)) (x : List ℚ)
    (h : cands ≠ []) :
    0 ≤ (argminIdx d cands x).1 ∧ (argminIdx d cands x).1 < (cands.length : ℤ) := by
  rcases cands with _ | ⟨c, cs⟩
  · exact absurd rfl h
  · unfold argminIdx
    simp only [argminScan]
    have := argminScan_bounds d x cs 1 ((0 : ℤ), some (d x c)) (by norm_num)
      (by norm_num) (by simp)
    refine ⟨this.1, ?_⟩
    have h3 := this.2.1
    simp only [List.length_cons]
    push_cast at h3 ⊢
    omega

/-- Any comparator obtained from a strict order on a key satisfies the
comparator laws. -/
theorem strictCmp_key {α β : Type _} [LinearOrder β] (f : α → β) :
    StrictCmp (fun a b => decide (f a < f b)) := by
  constructor
  · intro a b c hab hbc
    simp only [decide_eq_true_eq] at *
    exact lt_trans hab hbc
  · intro a b hab
    simp only [decide_eq_true_eq, decide_eq_false_iff_not] at *
    exact not_lt.mpr hab.le

/-- The HNSW max-heap comparator (distance descending, ties by id) is a strict
order as well. -/
theorem strictCmp_candLessMax : StrictCmp hnsw.candLessMax := by
  constructor
  · intro a b c hab hbc
    unfold hnsw.candLessMax at *
    by_cases h1 : a.dist = b.dist <;> by_cases h2 : b.dist = c.dist <;>
      by_cases h3 : a.dist = c.dist
    · rw [if_pos h1, decide_eq_true_eq] at hab
      rw [if_pos h2, decide_eq_true_eq] at hbc
      simp only [if_pos h3, decide_eq_true_eq]
      omega
    · exact absurd (h1.trans h2) h3
    · exact absurd (h1.symm.trans h3) h2
    · rw [if_pos h1, decide_eq_true_eq] at hab
      rw [if_neg h2, decide_eq_true_eq] at hbc
      simp only [if_neg h3, decide_eq_true_eq]
      exact h1 ▸ hbc
    · exact absurd (h3.trans h2.symm) h1
    · rw [if_neg h1, decide_eq_true_eq] at hab
      rw [if_pos h2, decide_eq_true_eq] at hbc
      simp only [if_neg h3, decide_eq_true_eq]
      exact h2 ▸ hab
    · rw [if_neg h1, decide_eq_true_eq] at hab
      rw [if_neg h2, decide_eq_true_eq] at hbc
      exact absurd h3.symm (ne_of_lt (lt_trans hbc hab))
    · rw [if_neg h1, decide_eq_true_eq] at hab
      rw [if_neg h2, decide_eq_true_eq] at hbc
      simp only [if_neg h3, decide_eq_true_eq]
      exact lt_trans hbc hab
  · intro a b hab
    unfold hnsw.candLessMax at *
    by_cases h : a.dist = b.dist
    · rw [if_pos h, decide_eq_true_eq] at hab
      simp only [if_pos h.symm, decide_eq_false_iff_not]
      omega
    · rw [if_neg h, decide_eq_true_eq] at hab
      simp only [if_neg (fun e : b.dist = a.dist => h e.symm), decide_eq_false_iff_not]
      exact not_lt.mpr hab.le

/-! ### Association-list and indexed-access lemmas -/

theorem lookup_map_set [BEq κ] [LawfulBEq κ] (l : List (κ × β)) (k : κ) (v : β)
    (h : l.any (fun p => p.1 == k) = true) :
    (l.map (fun p => if p.1 == k then (k, v) else p)).lookup k = some v := by
  induction l with
  | nil => simp at h
  | cons p ps ih =>
      cases hp : p.1 == k with
      | true =>
          rw [List.map_cons, if_pos hp]
          simp [List.lookup]
      | false =>
          simp only [List.any_cons, hp, Bool.false_or] at h
          have hk : (k == p.1) = false := by
            rw [beq_eq_false_iff_ne] at hp ⊢
            exact fun e => hp e.symm
          rw [List.map_cons, if_neg (by simp [hp])]
          rw [List.lookup, hk]
          exact ih h

theorem lookup_map_set_ne [BEq κ] [LawfulBEq κ] (l : List (κ × β)) (k j : κ) (v : β)
    (h : j ≠ k) :
    (l.map (fun p => if p.1 == k then (k, v) else p)).lookup j = l.lookup j := by
  induction l with
  | nil => simp
  | cons p ps ih =>
      cases hp : p.1 == k with
      | true =>
          have hjk : (j == k) = false := beq_eq_false_iff_ne.mpr h
          have hjp : (j == p.1) = false := by
            rw [beq_eq_false_iff_ne]
            intro e
            exact h (e.trans (beq_iff_eq.mp hp))
          rw [List.map_cons, if_pos hp, List.lookup, hjk, List.lookup, hjp]
          exact ih
      | false =>
          rw [List.map_cons, if_neg (by simp [hp]), List.lookup, List.lookup]
          cases hjp : j == p.1 with
          | true => rfl
          | false => exact ih

theorem lookup_append_absent [BEq κ] [LawfulBEq κ] (l : List (κ × β)) (k : κ) (v : β)
    (h : l.any (fun p => p.1 == k) = false) :
    (l ++ [(k, v)]).lookup k = some v := by
  induction l with
  | nil => simp [List.lookup]
  | cons p ps ih =>
      simp only [List.any_cons, Bool.or_eq_false_iff] at h
      have hk : (k == p.1) = false := by
        rw [beq_eq_false_iff_ne]
        intro e
        exact absurd (beq_iff_eq.mpr e.symm) (by simp [h.1])
      rw [List.cons_append, List.lookup, hk]
      exact ih h.2

theorem lookup_alistSet_self [BEq κ] [LawfulBEq κ] (l : List (κ × β)) (k : κ) (v : β) :
    (alistSet l k v).lookup k = some v := by
  unfold alistSet
  cases h : l.any (fun p => p.1 == k) with
  | true => rw [if_pos rfl]; exact lookup_map_set l k v h
  | false => rw [if_neg (by simp)]; exact lookup_append_absent l k v h

theorem lookup_alistSet_ne [BEq κ] [LawfulBEq κ] (l : List (κ × β)) (k j : κ) (v : β)
    (h : j ≠ k) :
    (alistSet l k v).lookup j = l.lookup j := by
  unfold alistSet
  cases hany : l.any (fun p => p.1 == k) with
  | true => rw [if_pos rfl]; exact lookup_map_set_ne l k j v h
  | false =>
      rw [if_neg (by simp)]
      induction l with
      | nil => simp [List.lookup, beq_eq_false_iff_ne.mpr h]
      | cons p ps ih =>
          simp only [List.any_cons, Bool.or_eq_false_iff] at hany
          rw [List.cons_append, List.lookup, List.lookup]
          cases hjp : j == p.1 with
          | true => rfl
          | false => exact ih hany.2

theorem lookup_mem_keys [BEq κ] [LawfulBEq κ] (l : List (κ × β)) (k : κ) (v : β)
    (h : l.lookup k = some v) : k ∈ l.map Prod.fst := by
  induction l with
  | nil => simp [List.lookup] at h
  | cons p ps ih =>
      rw [List.lookup] at h
      cases hk : k == p.1 with
      | true => simp [List.map_cons, beq_iff_eq.mp hk]
      | false =>
          rw [hk] at h
          simp only [List.map_cons, List.mem_cons]
          exact Or.inr (ih h)

theorem lookup_isSome_mem_keys [BEq κ] [LawfulBEq κ] (l : List (κ × β)) (k : κ)
    (h : (l.lookup k).isSome) : k ∈ l.map Prod.fst := by
  cases hl : l.lookup k with
  | none => rw [hl] at h; simp at h
  | some v => exact lookup_mem_keys l k v hl

theorem lookup_of_mem_nodup [BEq κ] [LawfulBEq κ] (l : List (κ × β)) (p : κ × β)
    (hnd : (l.map Prod.fst).Nodup) (hm : p ∈ l) : l.lookup p.1 = some p.2 := by
  induction l with
  | nil => simp at hm
  | cons q qs ih =>
      rw [List.map_cons, List.nodup_cons] at hnd
      rcases List.mem_cons.mp hm with hm | hm
      · rw [hm, List.lookup, beq_self_eq_true]
      · have hne : (p.1 == q.1) = false := by
          rw [beq_eq_false_iff_ne]
          intro e
          exact hnd.1 (e ▸ List.mem_map_of_mem Prod.fst hm)
        rw [List.lookup, hne]
        exact ih hnd.2 hm

theorem getD_set_self (l : List α) (i : ℕ) (v d : α) (h : i < l.length) :
    (l.set i v).getD i d = v := by
  induction l generalizing i with
  | nil => simp at h
  | cons x xs ih =>
      cases i with
      | zero => simp
      | succ n =>
          simp only [List.set_cons_succ, List.getD_cons_succ]
          exact ih n (by simpa using h)

theorem listGetI_setI_self (l : List α) (i : ℤ) (v d : α)
    (h0 : 0 ≤ i) (h1 : i < (l.length : ℤ)) :
    listGetI (listSetI l i v) i d = v := by
  unfold listGetI listSetI
  rw [if_pos h0, if_pos h0]
  exact getD_set_self l i.toNat v d (by omega)

theorem getD_map_snd (l : List (α × ℚ)) (i : ℕ) (d : α) :
    (l.map Prod.snd).getD i 0 = (l.getD i (d, 0)).2 := by
  induction l generalizing i with
  | nil => simp
  | cons x xs ih =>
      cases i with
      | zero => simp
      | succ n => simpa using ih n

/-! ### Ordering facts about `sortSlice` -/

/-- Mapping the sort key out of a key-sorted list gives the sorted keys: the
two sides share the same multiset of keys and are both sorted by `≤`. -/
theorem sortSlice_map_snd (l : List (α × ℚ)) :
    (sortSlice (fun a b => decide (a.2 < b.2)) l).map Prod.snd =
      sortSlice (fun (a b : ℚ) => decide (a < b)) (l.map Prod.snd) := by
  have hperm1 : List.Perm ((sortSlice (fun a b => decide (a.2 < b.2)) l).map Prod.snd)
      (l.map Prod.snd) := (sortSlice_perm _ l).map Prod.snd
  have hperm2 : List.Perm (sortSlice (fun (a b : ℚ) => decide (a < b)) (l.map Prod.snd))
      (l.map Prod.snd) := sortSlice_perm _ _
  have hs1 : ((sortSlice (fun a b => decide (a.2 < b.2)) l).map Prod.snd).Sorted (· ≤ ·) := by
    have := sortSlice_sorted (strictCmp_key (Prod.snd : α × ℚ → ℚ)) l
    refine List.Pairwise.map Prod.snd ?_ this
    intro a b h
    simpa [not_lt] using h
  have hs2 : (sortSlice (fun (a b : ℚ) => decide (a < b)) (l.map Prod.snd)).Sorted (· ≤ ·) := by
    have := sortSlice_sorted (strictCmp_key (id : ℚ → ℚ)) (l.map Prod.snd)
    refine List.Pairwise.imp ?_ this
    intro a b h
    simpa [not_lt] using h
  exact List.eq_of_perm_of_sorted (hperm1.trans hperm2.symm) hs1 hs2

/-! ### Claim C5 -/

/-- C5 (amended): in RPT tree construction every split trial records as its
threshold the median of the projected values of the ids being split *plus* a
jitter term `(Float64()·2−1)·6·maxDist/√dim`, where `maxDist` is the maximum
distance from a randomly chosen point of the subtree.  (The claim as frozen —
threshold equals the bare median, no jitter — fails; see the
counterexample.) -/
theorem rpt_split_threshold_is_median_plus_jitter
    (pts : List (ℤ × List ℚ)) (dimension : ℕ) (ids : List ℤ) (rng : Rng) :
    (rpt.splitTrial pts dimension ids rng).1.threshold =
      specMedianProjection pts (rpt.randProj dimension rng).1 ids +
      (((((rpt.randProj dimension rng).2.nextIntn ids.length).2.nextFloat).1 * 2 - 1) * 6 *
        ratSqrt (rpt.maxSqDist pts
          (alistGet pts (ids.getD ((rpt.randProj dimension rng).2.nextIntn ids.length).1 0) [])
          ids) / ratSqrt (dimension : ℚ)) := by
  unfold rpt.splitTrial specMedianProjection
  simp only []
  congr 1
  have hlen : (sortSlice (fun (a b : ℤ × ℚ) => decide (a.2 < b.2))
      (ids.map (fun id => (id, rpt.dotQ (alistGet pts id []) (rpt.randProj dimension rng).1)))).length
      = ids.length := by
    rw [(sortSlice_perm _ _).length_eq, List.length_map]
  rw [← getD_map_snd _ _ (0 : ℤ), sortSlice_map_snd, List.map_map]
  rw [hlen]
  rfl

set_option maxRecDepth 1600 in
unseal Rat.add Rat.mul Rat.sub Rat.inv Nat.sqrt.iter in
/-- C5 (counterexample): a concrete two-point build (D=1, leafCapacity=1, one
candidate projection, draws `1/2`, `0`, `3/4`) produces an internal node whose
recorded threshold is `9`, while the median of the projected values of the ids
being split is `0`: a jitter of `9` was added to the median. -/
theorem rpt_threshold_counterexample :
    (rpt.buildTree rptStTwo id 42 rngC5).tree =
      some (TreeNode.node [0] 9 (TreeNode.leaf [1]) (TreeNode.leaf [2])) ∧
    specMedianProjection rptStTwo.points [0] [1, 2] = 0 ∧
    (9 : ℚ) ≠ 0 := by
  refine ⟨by decide, by decide, by decide⟩

/-- C10: on a non-empty index and a dimension-matching query, `Search` with
`k = 0` succeeds with an empty neighbour list in all three engines: the
candidate pool is never smaller than `0`, so no fallback or error path runs
and `take 0` of the sorted pool is returned. -/
theorem search_k_zero
    (dist : List ℚ → List ℚ → ℚ) (hst : HNSWState) (q1 : List ℚ) (nw : ℕ) (ep : ℤ)
    (hq1 : q1.length = hst.dimension) (hep : hst.entryPoint = some ep)
    (pst : PQIVFState) (q2 : List ℚ)
    (hq2 : q2.length = pst.dimension) (hp : pst.invertedLists.length ≠ 0)
    (rst : RPTState) (q3 : List ℚ) (shuffle : List ℤ → List ℤ) (seed : ℤ) (mkRng : ℤ → Rng)
    (hq3 : q3.length = rst.dimension) (hr : rst.points.length ≠ 0) :
    hnsw.Search dist hst q1 0 nw = .ok [] ∧
    pqivf.Search dist pst q2 0 = .ok [] ∧
    (rpt.Search dist rst q3 0 shuffle seed mkRng).1 = .ok [] := by
  refine ⟨?_, ?_, ?_⟩
  · simp only [hnsw.Search]
    rw [if_neg (by simp [hq1]), hep]
    simp
  · simp only [pqivf.Search]
    rw [if_neg (by simp [hq2]), if_neg hp]
    simp
  · simp only [rpt.Search]
    rw [if_neg (by simp [hq3]), if_neg hr]
    simp

set_option maxRecDepth 1600 in
unseal Rat.add Rat.mul Rat.sub Rat.inv Nat.sqrt.iter in
/-- Witness for C10 at concrete one-dimensional indexes of each engine. -/
theorem search_k_zero_witness :
    (([(0:ℚ)].length = hnswStZero.dimension) ∧ (hnswStZero.entryPoint = some 0)) ∧
    (([(0:ℚ)].length = pqStTwo.dimension) ∧ (pqStTwo.invertedLists.length ≠ 0)) ∧
    (([(0:ℚ)].length = rptStTwo.dimension) ∧ (rptStTwo.points.length ≠ 0)) ∧
    (hnsw.Search euclideanQ hnswStZero [0] 0 1 = .ok [] ∧
     pqivf.Search euclideanQ pqStTwo [0] 0 = .ok [] ∧
     (rpt.Search euclideanQ rptStTwo [0] 0 id 42 rngC5).1 = .ok []) := by
  refine ⟨⟨by decide, by decide⟩, ⟨by decide, by decide⟩, ⟨by decide, by decide⟩, ?_⟩
  exact search_k_zero euclideanQ hnswStZero [0] 1 0 (by decide) (by decide)
    pqStTwo [0] (by decide) (by decide) rptStTwo [0] id 42 rngC5 (by decide) (by decide)

/-! ### Claim C7: entry-point promotion on Delete -/

/-- A left fold preserves any invariant each step preserves. -/
theorem foldl_preserve {α β : Type _} (P : α → Prop) (f : α → β → α) (l : List β)
    (a : α) (hf : ∀ x b, P x → P (f x b)) (ha : P a) : P (l.foldl f a) := by
  induction l generalizing a with
  | nil => exact ha
  | cons b tl ih => exact ih (f a b) (hf a b ha)

/-- Unlinking a node never moves the entry point. -/
theorem removeNodeLinks_entryPoint (st : HNSWState) (nId : ℤ) :
    (hnsw.removeNodeLinks st nId).entryPoint = st.entryPoint := by
  have hin : ∀ (lvl : ℤ) (s : HNSWState) (c : ℤ),
      (hnsw.unlinkInStep nId lvl s c).entryPoint = s.entryPoint := by
    intro lvl s c
    unfold hnsw.unlinkInStep
    split
    · rfl
    · rfl
  have hout : ∀ (lvl : ℤ) (s : HNSWState) (c : ℤ),
      (hnsw.unlinkOutStep nId lvl s c).entryPoint = s.entryPoint := by
    intro lvl s c
    unfold hnsw.unlinkOutStep
    split
    · rfl
    · rfl
  have hinp : ∀ (s : HNSWState) (p : ℤ × List ℤ),
      (hnsw.unlinkInPair nId s p).entryPoint = s.entryPoint := by
    intro s p
    have hs' : (p.2.foldl (hnsw.unlinkInStep nId p.1) s).entryPoint = s.entryPoint :=
      foldl_preserve (fun t : HNSWState => t.entryPoint = s.entryPoint) _ _ _
        (fun x b hx => (hin p.1 x b).trans hx) rfl
    unfold hnsw.unlinkInPair
    dsimp only
    split
    · exact hs'
    · exact hs'
  have houtp : ∀ (s : HNSWState) (p : ℤ × List ℤ),
      (hnsw.unlinkOutPair nId s p).entryPoint = s.entryPoint := by
    intro s p
    have hs' : (p.2.foldl (hnsw.unlinkOutStep nId p.1) s).entryPoint = s.entryPoint :=
      foldl_preserve (fun t : HNSWState => t.entryPoint = s.entryPoint) _ _ _
        (fun x b hx => (hout p.1 x b).trans hx) rfl
    unfold hnsw.unlinkOutPair
    dsimp only
    split
    · exact hs'
    · exact hs'
  unfold hnsw.removeNodeLinks
  cases hg : hnsw.getNode st nId with
  | none => rfl
  | some n =>
      dsimp only
      refine foldl_preserve (fun t : HNSWState => t.entryPoint = st.entryPoint) _ _ _
        (fun x b hx => (houtp x b).trans hx) ?_
      exact foldl_preserve (fun t : HNSWState => t.entryPoint = st.entryPoint) _ _ _
        (fun x b hx => (hinp x b).trans hx) rfl

/-- `promoteStep` folded from a present candidate yields the running maximum. -/
theorem promoteFold_from_some (l : List (ℤ × HNode)) (a : HNode) :
    ∃ e, l.foldl hnsw.promoteStep (some a) = some e ∧
      (e = a ∨ ∃ p ∈ l, p.2 = e) ∧ a.level ≤ e.level ∧
      ∀ p ∈ l, p.2.level ≤ e.level := by
  induction l generalizing a with
  | nil => exact ⟨a, rfl, Or.inl rfl, le_refl _, by simp⟩
  | cons p tl ih =>
      by_cases h : p.2.level > a.level
      · obtain ⟨e, he, hsrc, hle, hmax⟩ := ih p.2
        refine ⟨e, ?_, ?_, ?_, ?_⟩
        · simpa [hnsw.promoteStep, h] using he
        · rcases hsrc with rfl | ⟨q, hq, hqe⟩
          · exact Or.inr ⟨p, List.mem_cons_self .., rfl⟩
          · exact Or.inr ⟨q, List.mem_cons_of_mem _ hq, hqe⟩
        · exact le_trans (le_of_lt h) hle
        · intro q hq
          rcases List.mem_cons.mp hq with rfl | hq'
          · exact hle
          · exact hmax q hq'
      · obtain ⟨e, he, hsrc, hle, hmax⟩ := ih a
        have hsrc' : e = a ∨ ∃ q ∈ p :: tl, q.2 = e := by
          rcases hsrc with h' | ⟨q, hq, hqe⟩
          · exact Or.inl h'
          · exact Or.inr ⟨q, List.mem_cons_of_mem _ hq, hqe⟩
        refine ⟨e, ?_, hsrc', hle, ?_⟩
        · simpa [hnsw.promoteStep, h] using he
        · intro q hq
          rcases List.mem_cons.mp hq with rfl | hq'
          · exact le_trans (le_of_not_lt h) hle
          · exact hmax q hq'

/-- The promotion scan over a non-empty node list returns a listed node of
maximal level. -/
theorem promoteFold_ne_nil (l : List (ℤ × HNode)) (hne : l ≠ []) :
    ∃ e, l.foldl hnsw.promoteStep none = some e ∧
      (∃ p ∈ l, p.2 = e) ∧ ∀ p ∈ l, p.2.level ≤ e.level := by
  cases l with
  | nil => exact absurd rfl hne
  | cons p tl =>
      obtain ⟨e, he, hsrc, hle, hmax⟩ := promoteFold_from_some tl p.2
      refine ⟨e, by simpa [hnsw.promoteStep] using he, ?_, ?_⟩
      · rcases hsrc with rfl | ⟨q, hq, hqe⟩
        · exact ⟨p, List.mem_cons_self .., rfl⟩
        · exact ⟨q, List.mem_cons_of_mem _ hq, hqe⟩
      · intro q hq
        rcases List.mem_cons.mp hq with rfl | hq'
        · exact hle
        · exact hmax q hq'

/-- C7: deleting the node that is the current entry point succeeds, and when
at least one node remains the new entry point is the id of a remaining node
whose level is maximal among all remaining nodes. -/
theorem hnsw_delete_promotes_max_level (st : HNSWState) (id : ℤ)
    (hmem : (hnsw.getNode st id).isSome)
    (hep : st.entryPoint = some id)
    (hne : (hnsw.Delete st id).1.nodes ≠ []) :
    (hnsw.Delete st id).2 = none ∧
    ∃ p ∈ (hnsw.Delete st id).1.nodes,
      (hnsw.Delete st id).1.entryPoint = some p.2.id ∧
      ∀ q ∈ (hnsw.Delete st id).1.nodes, q.2.level ≤ p.2.level := by
  obtain ⟨n, hn⟩ := Option.isSome_iff_exists.mp hmem
  have h2 : (hnsw.removeNodeLinks st id).entryPoint = some id := by
    rw [removeNodeLinks_entryPoint, hep]
  have hD : hnsw.Delete st id =
      ({ hnsw.removeNodeLinks st id with
          nodes := (hnsw.removeNodeLinks st id).nodes.filter (fun p => ¬ p.1 == id),
          entryPoint := (((hnsw.removeNodeLinks st id).nodes.filter
            (fun p => ¬ p.1 == id)).foldl hnsw.promoteStep none).map (fun e => e.id) },
        none) := by
    unfold hnsw.Delete
    rw [hn]
    dsimp only
    rw [if_pos h2]
  rw [hD] at hne ⊢
  dsimp only at hne ⊢
  refine ⟨rfl, ?_⟩
  obtain ⟨e, he, ⟨p, hp, hpe⟩, hmax⟩ := promoteFold_ne_nil _ hne
  refine ⟨p, hp, ?_, ?_⟩
  · rw [he, hpe]
    rfl
  · intro q hq
    rw [hpe]
    exact hmax q hq

set_option maxRecDepth 1600 in
unseal Rat.add Rat.mul Rat.sub Rat.inv Nat.sqrt.iter in
/-- Witness for C7: deleting the level-1 entry point of the three-node index
promotes a remaining maximal-level node. -/
theorem hnsw_delete_promotes_witness :
    ((hnsw.getNode hnswStThree 2).isSome = true) ∧
    (hnswStThree.entryPoint = some 2) ∧
    ((hnsw.Delete hnswStThree 2).1.nodes ≠ []) ∧
    ((hnsw.Delete hnswStThree 2).2 = none ∧
     ∃ p ∈ (hnsw.Delete hnswStThree 2).1.nodes,
       (hnsw.Delete hnswStThree 2).1.entryPoint = some p.2.id ∧
       ∀ q ∈ (hnsw.Delete hnswStThree 2).1.nodes, q.2.level ≤ p.2.level) := by
  refine ⟨by decide, by decide, by decide, ?_⟩
  exact hnsw_delete_promotes_max_level hnswStThree 2 (by decide) (by decide) (by decide)

/-! ### Claim C8: the sampled level and its clamp -/

theorem mem_of_lookup [BEq κ] [LawfulBEq κ] (l : List (κ × β)) (k : κ) (v : β)
    (h : l.lookup k = some v) : (k, v) ∈ l := by
  induction l with
  | nil => simp [List.lookup] at h
  | cons p ps ih =>
      rw [List.lookup] at h
      cases hk : k == p.1 with
      | true =>
          rw [hk] at h
          have hkp : k = p.1 := beq_iff_eq.mp hk
          have hv : p.2 = v := by simpa using h
          have hpe : (k, v) = p := by
            rw [Prod.ext_iff]
            exact ⟨hkp, hv.symm⟩
          rw [hpe]
          exact List.mem_cons_self _ _
      | false =>
          rw [hk] at h
          exact List.mem_cons_of_mem _ (ih h)

theorem map_fst_replace [BEq κ] [LawfulBEq κ] (l : List (κ × β)) (k : κ) (v : β) :
    (l.map (fun p => if p.1 == k then (k, v) else p)).map Prod.fst = l.map Prod.fst := by
  induction l with
  | nil => rfl
  | cons p tl ih =>
      by_cases hp : p.1 == k
      · have hk : p.1 = k := beq_iff_eq.mp hp
        simp [hp, ih, hk]
      · simp [hp, ih]

theorem alistSet_keys_nodup [BEq κ] [LawfulBEq κ] (l : List (κ × β)) (k : κ) (v : β)
    (h : (l.map Prod.fst).Nodup) : ((alistSet l k v).map Prod.fst).Nodup := by
  unfold alistSet
  cases hany : l.any (fun p => p.1 == k) with
  | true =>
      rw [if_pos rfl, map_fst_replace]
      exact h
  | false =>
      rw [if_neg (by simp), List.map_append]
      simp only [List.map_cons, List.map_nil]
      refine List.Nodup.append h (List.nodup_singleton k) ?_
      intro a ha hb
      have hak : a = k := by simpa using hb
      subst hak
      obtain ⟨p, hp, hpk⟩ := List.mem_map.mp ha
      have := List.any_eq_false.mp (by exact_mod_cast hany) p hp
      exact this (by simp [hpk])

theorem mem_alistSet [BEq κ] [LawfulBEq κ] (l : List (κ × β)) (k : κ) (v : β)
    (p : κ × β) (hp : p ∈ alistSet l k v) : p = (k, v) ∨ p ∈ l := by
  unfold alistSet at hp
  by_cases hany : l.any (fun q => q.1 == k)
  · rw [if_pos hany] at hp
    obtain ⟨q, hq, hqe⟩ := List.mem_map.mp hp
    by_cases hqk : q.1 == k
    · rw [if_pos hqk] at hqe
      exact Or.inl hqe.symm
    · rw [if_neg hqk] at hqe
      exact Or.inr (hqe ▸ hq)
  · rw [if_neg hany] at hp
    rcases List.mem_append.mp hp with h | h
    · exact Or.inr h
    · exact Or.inl (by simpa using h)

theorem getNode_id (s : HNSWState) (i : ℤ) (n : HNode) (hwf : hnsw.KeysWF s)
    (h : hnsw.getNode s i = some n) : n.id = i := by
  exact hwf.2 (i, n) (mem_of_lookup _ _ _ h)

theorem nodeLevel_eq_core (st : HNSWState) (id : ℤ) :
    hnsw.nodeLevel st id = (hnsw.nodeCore st id).map (fun c => c.2.2) := by
  unfold hnsw.nodeLevel hnsw.nodeCore
  cases hnsw.getNode st id <;> rfl

theorem nodeVector_eq_core (st : HNSWState) (id : ℤ) :
    hnsw.nodeVector st id = (hnsw.nodeCore st id).map (fun c => c.2.1) := by
  unfold hnsw.nodeVector hnsw.nodeCore
  cases hnsw.getNode st id <;> rfl

/-- Writing back a node that keeps the id, vector and level of the node
currently stored under the same key preserves `CoreInv`. -/
theorem setNode_core_inv (s0 s : HNSWState) (n m : HNode) (i : ℤ)
    (hs : hnsw.CoreInv s0 s) (hget : hnsw.getNode s i = some n)
    (hid : m.id = n.id) (hvec : m.vector = n.vector) (hlvl : m.level = n.level) :
    hnsw.CoreInv s0 (hnsw.setNode s m) := by
  have hni : n.id = i := getNode_id s i n hs.1 hget
  have hmi : m.id = i := hid.trans hni
  constructor
  · constructor
    · exact alistSet_keys_nodup _ _ _ hs.1.1
    · intro p hp
      rcases mem_alistSet _ _ _ _ hp with rfl | hp'
      · rfl
      · exact hs.1.2 p hp'
  · intro k
    by_cases hk : k = m.id
    · subst hk
      have h1 : hnsw.nodeCore (hnsw.setNode s m) m.id = some (m.id, m.vector, m.level) := by
        unfold hnsw.nodeCore hnsw.getNode hnsw.setNode
        rw [lookup_alistSet_self]
        rfl
      have h2 : hnsw.nodeCore s i = some (m.id, m.vector, m.level) := by
        unfold hnsw.nodeCore
        rw [hget, hid, hvec, hlvl]
        rfl
      calc hnsw.nodeCore (hnsw.setNode s m) m.id
          = some (m.id, m.vector, m.level) := h1
        _ = hnsw.nodeCore s i := h2.symm
        _ = hnsw.nodeCore s0 i := hs.2 i
        _ = hnsw.nodeCore s0 m.id := by rw [hmi]
    · have hlk : hnsw.getNode (hnsw.setNode s m) k = hnsw.getNode s k := by
        unfold hnsw.getNode hnsw.setNode
        exact lookup_alistSet_ne _ _ _ _ hk
      unfold hnsw.nodeCore
      rw [hlk]
      exact hs.2 k

/-- Trimming a neighbour's links preserves `CoreInv`. -/
theorem trimNeighborLinks_core (dist : List ℚ → List ℚ → ℚ) (s0 s : HNSWState)
    (nId L : ℤ) (M : ℕ) (hs : hnsw.CoreInv s0 s) :
    hnsw.CoreInv s0 (hnsw.trimNeighborLinks dist s nId L M) := by
  unfold hnsw.trimNeighborLinks
  cases hg : hnsw.getNode s nId with
  | none => exact hs
  | some n =>
      dsimp only
      split
      · refine foldl_preserve (hnsw.CoreInv s0) _ _ _ ?_ hs
        intro x c hx
        dsimp only
        split
        · exact hx
        · next r hgr => exact setNode_core_inv s0 x r _ c hx hgr rfl rfl rfl
      · next n' hgn =>
          refine setNode_core_inv s0 _ n' _ nId ?_ hgn rfl rfl rfl
          refine foldl_preserve (hnsw.CoreInv s0) _ _ _ ?_ hs
          intro x c hx
          dsimp only
          split
          · exact hx
          · next r hgr => exact setNode_core_inv s0 x r _ c hx hgr rfl rfl rfl

/-- Each write of the incoming-edge unlink pass preserves `CoreInv`. -/
theorem unlinkInStep_core (s0 : HNSWState) (nId lvl : ℤ) (s : HNSWState) (c : ℤ)
    (hs : hnsw.CoreInv s0 s) : hnsw.CoreInv s0 (hnsw.unlinkInStep nId lvl s c) := by
  unfold hnsw.unlinkInStep
  split
  · exact hs
  · next nb hg => exact setNode_core_inv s0 s nb _ c hs hg rfl rfl rfl

/-- Each write of the outgoing-edge unlink pass preserves `CoreInv`. -/
theorem unlinkOutStep_core (s0 : HNSWState) (nId lvl : ℤ) (s : HNSWState) (c : ℤ)
    (hs : hnsw.CoreInv s0 s) : hnsw.CoreInv s0 (hnsw.unlinkOutStep nId lvl s c) := by
  unfold hnsw.unlinkOutStep
  split
  · exact hs
  · next nb hg => exact setNode_core_inv s0 s nb _ c hs hg rfl rfl rfl

/-- Processing a reverse-link entry preserves `CoreInv`. -/
theorem unlinkInPair_core (s0 : HNSWState) (nId : ℤ) (s : HNSWState) (p : ℤ × List ℤ)
    (hs : hnsw.CoreInv s0 s) : hnsw.CoreInv s0 (hnsw.unlinkInPair nId s p) := by
  have hs' : hnsw.CoreInv s0 (p.2.foldl (hnsw.unlinkInStep nId p.1) s) :=
    foldl_preserve (hnsw.CoreInv s0) _ _ _
      (fun x b hx => unlinkInStep_core s0 nId p.1 x b hx) hs
  unfold hnsw.unlinkInPair
  dsimp only
  split
  · exact hs'
  · next cur hg => exact setNode_core_inv s0 _ cur _ nId hs' hg rfl rfl rfl

/-- Processing a forward-link entry preserves `CoreInv`. -/
theorem unlinkOutPair_core (s0 : HNSWState) (nId : ℤ) (s : HNSWState) (p : ℤ × List ℤ)
    (hs : hnsw.CoreInv s0 s) : hnsw.CoreInv s0 (hnsw.unlinkOutPair nId s p) := by
  have hs' : hnsw.CoreInv s0 (p.2.foldl (hnsw.unlinkOutStep nId p.1) s) :=
    foldl_preserve (hnsw.CoreInv s0) _ _ _
      (fun x b hx => unlinkOutStep_core s0 nId p.1 x b hx) hs
  unfold hnsw.unlinkOutPair
  dsimp only
  split
  · exact hs'
  · next cur hg => exact setNode_core_inv s0 _ cur _ nId hs' hg rfl rfl rfl

/-- Unlinking a node preserves `CoreInv`. -/
theorem removeNodeLinks_core (s0 s : HNSWState) (nId : ℤ)
    (hs : hnsw.CoreInv s0 s) :
    hnsw.CoreInv s0 (hnsw.removeNodeLinks s nId) := by
  unfold hnsw.removeNodeLinks
  cases hg : hnsw.getNode s nId with
  | none => exact hs
  | some n =>
      dsimp only
      refine foldl_preserve (hnsw.CoreInv s0) _ _ _
        (fun x b hx => unlinkOutPair_core s0 nId x b hx) ?_
      exact foldl_preserve (hnsw.CoreInv s0) _ _ _
        (fun x b hx => unlinkInPair_core s0 nId x b hx) hs

/-- Wiring a stored node into the graph preserves `CoreInv`. -/
theorem insertNode_core (dist : List ℚ → List ℚ → ℚ) (s0 s : HNSWState) (nId : ℤ)
    (ef : ℕ) (hs : hnsw.CoreInv s0 s) :
    hnsw.CoreInv s0 (hnsw.insertNode dist s nId ef) := by
  unfold hnsw.insertNode
  cases hg : hnsw.getNode s nId with
  | none => exact hs
  | some n =>
      cases hep : s.entryPoint with
      | none => exact ⟨hs.1, hs.2⟩
      | some ep =>
          dsimp only
          refine foldl_preserve
            (fun acc : HNSWState × ℤ => hnsw.CoreInv s0 acc.1) _ _ _ ?_ ?_
          · intro acc b hacc
            dsimp only
            refine foldl_preserve (hnsw.CoreInv s0) _ _ _ ?_ ?_
            · intro x c hx
              dsimp only
              split
              · exact hx
              · next nb hgx =>
                  split
                  · exact trimNeighborLinks_core dist s0 _ c b _
                      (setNode_core_inv s0 x nb _ c hx hgx rfl rfl rfl)
                  · exact setNode_core_inv s0 x nb _ c hx hgx rfl rfl rfl
            · split
              · exact hacc
              · next cur hgcur =>
                  exact setNode_core_inv s0 acc.1 cur _ nId hacc hgcur rfl rfl rfl
          · dsimp only
            split
            · exact hs
            · exact hs

/-- A successful `addAtLevel` stores the new node with exactly the level it
was handed: inserting wires links only. -/
theorem addAtLevel_level (dist : List ℚ → List ℚ → ℚ) (st : HNSWState) (id : ℤ)
    (v : List ℚ) (lv : ℤ) (hwf : hnsw.KeysWF st)
    (hok : (hnsw.addAtLevel dist st id v lv).2 = none) :
    hnsw.nodeLevel (hnsw.addAtLevel dist st id v lv).1 id = some lv := by
  unfold hnsw.addAtLevel at hok ⊢
  by_cases hdim : v.length ≠ st.dimension
  · rw [if_pos hdim] at hok
    simp at hok
  · rw [if_neg hdim] at hok ⊢
    dsimp only at hok ⊢
    by_cases hdup : (st.nodes.lookup id).isSome = true
    · rw [if_pos hdup] at hok
      simp at hok
    · rw [if_neg hdup] at hok ⊢
      dsimp only
      generalize (if st.distanceName = "cosine" then normalizeQ v else v) = w
      have hwf1 : hnsw.KeysWF
          { st with nodes := alistSet st.nodes id ⟨id, w, lv, [], []⟩ } := by
        constructor
        · exact alistSet_keys_nodup _ _ _ hwf.1
        · intro p hp
          rcases mem_alistSet _ _ _ _ hp with rfl | hp'
          · rfl
          · exact hwf.2 p hp'
      have hci := insertNode_core dist
        { st with nodes := alistSet st.nodes id ⟨id, w, lv, [], []⟩ }
        { st with nodes := alistSet st.nodes id ⟨id, w, lv, [], []⟩ }
        id st.ef ⟨hwf1, fun k => rfl⟩
      rw [nodeLevel_eq_core, hci.2 id]
      unfold hnsw.nodeCore hnsw.getNode
      dsimp only
      rw [lookup_alistSet_self]
      rfl

/-- The sampled level is the truncated `-ln u / ln M`, clamped at `32`. -/
theorem randomLevel_eq_clamped (M : ℕ) (u : ℝ) (hM : 2 ≤ M) (h0 : 0 < u) (h1 : u < 1) :
    hnsw.randomLevel M u =
      if ⌊-Real.log u / Real.log (M : ℝ)⌋ ≤ 32 then ⌊-Real.log u / Real.log (M : ℝ)⌋
      else 32 := by
  have hM1 : ¬ (M ≤ 1) := by omega
  have h1M : (1:ℝ) < (M:ℝ) := by exact_mod_cast (by omega : 1 < M)
  have hlogM : 0 < Real.log (M:ℝ) := Real.log_pos h1M
  have hlogu : Real.log u < 0 := Real.log_neg h0 h1
  have hx : 0 ≤ -Real.log u / Real.log (M:ℝ) :=
    div_nonneg (by linarith) (le_of_lt hlogM)
  unfold hnsw.randomLevel hnsw.goTruncInt
  rw [if_neg hM1]
  dsimp only
  rw [if_pos hx]
  by_cases hc : ⌊-Real.log u / Real.log (M:ℝ)⌋ ≤ 32
  · rw [if_neg (show ¬ (⌊-Real.log u / Real.log (M:ℝ)⌋ > maxLevelCap) by
      unfold maxLevelCap; omega), if_pos hc]
  · rw [if_pos (show ⌊-Real.log u / Real.log (M:ℝ)⌋ > maxLevelCap by
      unfold maxLevelCap; omega), if_neg hc]
    rfl

/-- C8: with `M ≥ 2` and a draw `u ∈ (0,1)`, the sampled insertion level is
`⌊-ln u / ln M⌋` when that is at most `32` and `32` otherwise, and a
successful `Add` stores the new node with exactly the sampled level. -/
theorem hnsw_add_level_clamped (M : ℕ) (u : ℝ) (hM : 2 ≤ M) (h0 : 0 < u) (h1 : u < 1) :
    hnsw.randomLevel M u =
      (if ⌊-Real.log u / Real.log (M : ℝ)⌋ ≤ 32
       then ⌊-Real.log u / Real.log (M : ℝ)⌋ else 32) ∧
    ∀ (dist : List ℚ → List ℚ → ℚ) (st : HNSWState) (id : ℤ) (v : List ℚ),
      st.M = M → hnsw.KeysWF st → (hnsw.Add dist st id v u).2 = none →
      hnsw.nodeLevel (hnsw.Add dist st id v u).1 id = some (hnsw.randomLevel M u) := by
  refine ⟨randomLevel_eq_clamped M u hM h0 h1, ?_⟩
  intro dist st id v hstM hwf hok
  unfold hnsw.Add at hok ⊢
  rw [hstM] at hok ⊢
  exact addAtLevel_level dist st id v _ hwf hok

/-- Witness for C8 at `M = 2`, `u = 1/2`. -/
theorem hnsw_add_level_clamped_witness :
    2 ≤ 2 ∧ (0:ℝ) < 1/2 ∧ (1:ℝ)/2 < 1 ∧
    (hnsw.randomLevel 2 (1/2) =
      (if ⌊-Real.log (1/2) / Real.log ((2:ℕ) : ℝ)⌋ ≤ 32
       then ⌊-Real.log (1/2) / Real.log ((2:ℕ) : ℝ)⌋ else 32) ∧
     ∀ (dist : List ℚ → List ℚ → ℚ) (st : HNSWState) (id : ℤ) (v : List ℚ),
       st.M = 2 → hnsw.KeysWF st → (hnsw.Add dist st id v (1/2)).2 = none →
       hnsw.nodeLevel (hnsw.Add dist st id v (1/2)).1 id =
         some (hnsw.randomLevel 2 (1/2))) :=
  ⟨le_refl 2, one_half_pos, one_half_lt_one,
    hnsw_add_level_clamped 2 (1/2) (le_refl 2) one_half_pos one_half_lt_one⟩

/-! ### Claim C3: Update strips edges, replaces the vector, retains the level -/

/-- A left fold establishes a per-element property while keeping an invariant:
processing an element establishes its property, later steps never destroy it. -/
theorem foldl_establish {α β : Type _} (P : α → Prop) (Q : β → α → Prop)
    (f : α → β → α) (l : List β) (a : α)
    (hP : ∀ x b, P x → P (f x b))
    (hQ : ∀ x b, P x → Q b (f x b))
    (hmono : ∀ x b c, P x → Q c x → Q c (f x b))
    (ha : P a) :
    P (l.foldl f a) ∧ ∀ b ∈ l, Q b (l.foldl f a) := by
  induction l generalizing a with
  | nil => exact ⟨ha, by simp⟩
  | cons b tl ih =>
      obtain ⟨hPf, hQf⟩ := ih (f a b) (hP a b ha)
      refine ⟨hPf, ?_⟩
      intro c hc
      rcases List.mem_cons.mp hc with rfl | hc'
      · exact (foldl_preserve (fun x => P x ∧ Q c x) f tl (f a c)
          (fun x d hx => ⟨hP x d hx.1, hmono x d c hx.1 hx.2⟩)
          ⟨hP a c ha, hQ a c ha⟩).2
      · exact hQf c hc'

theorem alistGet_alistSet_self [BEq κ] [LawfulBEq κ] (l : List (κ × β)) (k : κ)
    (v d : β) : alistGet (alistSet l k v) k d = v := by
  unfold alistGet
  rw [lookup_alistSet_self]
  rfl

theorem alistGet_alistSet_ne [BEq κ] [LawfulBEq κ] (l : List (κ × β)) (k j : κ)
    (v d : β) (h : j ≠ k) : alistGet (alistSet l k v) j d = alistGet l j d := by
  unfold alistGet
  rw [lookup_alistSet_ne _ _ _ _ h]

theorem linksAt_setLinksAt (n : HNode) (k L : ℤ) (v : List ℤ) :
    hnsw.linksAt (hnsw.setLinksAt n k v) L = if L = k then v else hnsw.linksAt n L := by
  unfold hnsw.linksAt hnsw.setLinksAt
  dsimp only
  by_cases hL : L = k
  · subst hL
    rw [if_pos rfl, alistGet_alistSet_self]
  · rw [if_neg hL, alistGet_alistSet_ne _ _ _ _ _ hL]

theorem linksAt_setRevLinksAt (n : HNode) (k L : ℤ) (v : List ℤ) :
    hnsw.linksAt (hnsw.setRevLinksAt n k v) L = hnsw.linksAt n L := rfl

theorem edgeShrink_refl (id : ℤ) (s : HNSWState) : hnsw.EdgeShrink id s s :=
  fun q m L hq hl => ⟨m, hq, hl⟩

theorem edgeShrink_trans (id : ℤ) (s t u : HNSWState)
    (h1 : hnsw.EdgeShrink id s t) (h2 : hnsw.EdgeShrink id t u) :
    hnsw.EdgeShrink id s u := by
  intro q m L hq hl
  obtain ⟨m1, hq1, hl1⟩ := h2 q m L hq hl
  exact h1 q m1 L hq1 hl1

theorem cleanAt_of_shrink (id q L : ℤ) (s t : HNSWState)
    (hsh : hnsw.EdgeShrink id s t) (hc : hnsw.CleanAt s id q L) :
    hnsw.CleanAt t id q L := by
  intro m hm hl
  obtain ⟨m0, hq0, hl0⟩ := hsh q m L hm hl
  exact hc m0 hq0 hl0

/-- Writing back a node whose forward links only shrank (with respect to edges
into `id`) produces a state whose `id`-edges all existed before. -/
theorem shrink_setNode (id : ℤ) (s : HNSWState) (nb m : HNode) (i : ℤ)
    (hwf : hnsw.KeysWF s) (hget : hnsw.getNode s i = some nb) (hid : m.id = nb.id)
    (hsub : ∀ L, id ∈ hnsw.linksAt m L → id ∈ hnsw.linksAt nb L) :
    hnsw.EdgeShrink id s (hnsw.setNode s m) := by
  intro q m' L hq hl
  have hni : nb.id = i := getNode_id s i nb hwf hget
  by_cases hqm : q = m.id
  · subst hqm
    have hself : hnsw.getNode (hnsw.setNode s m) m.id = some m := by
      unfold hnsw.getNode hnsw.setNode
      exact lookup_alistSet_self _ _ _
    rw [hself] at hq
    have hm : m = m' := by injection hq
    subst hm
    exact ⟨nb, by rw [hid, hni]; exact hget, hsub L hl⟩
  · have hne : hnsw.getNode (hnsw.setNode s m) q = hnsw.getNode s q := by
      unfold hnsw.getNode hnsw.setNode
      exact lookup_alistSet_ne _ _ _ _ hqm
    rw [hne] at hq
    exact ⟨m', hq, hl⟩

/-- One incoming-edge write keeps the map well-formed and only shrinks
`id`-edges. -/
theorem unlinkInStep_wf_shrink (id lvl : ℤ) (s : HNSWState) (c : ℤ)
    (hwf : hnsw.KeysWF s) :
    hnsw.KeysWF (hnsw.unlinkInStep id lvl s c) ∧
      hnsw.EdgeShrink id s (hnsw.unlinkInStep id lvl s c) := by
  unfold hnsw.unlinkInStep
  split
  · exact ⟨hwf, edgeShrink_refl id s⟩
  · next nb hg =>
      refine ⟨(setNode_core_inv s s nb (hnsw.setLinksAt nb lvl
        ((hnsw.linksAt nb lvl).filter (fun x => x ≠ id))) c
        ⟨hwf, fun k => rfl⟩ hg rfl rfl rfl).1, ?_⟩
      refine shrink_setNode id s nb _ c hwf hg rfl ?_
      intro L hL
      rw [linksAt_setLinksAt] at hL
      by_cases hLl : L = lvl
      · rw [if_pos hLl] at hL
        exact absurd (List.mem_filter.mp hL).2 (by simp)
      · rwa [if_neg hLl] at hL

/-- One outgoing-edge write keeps the map well-formed and only shrinks
`id`-edges (it touches reverse links only). -/
theorem unlinkOutStep_wf_shrink (id lvl : ℤ) (s : HNSWState) (c : ℤ)
    (hwf : hnsw.KeysWF s) :
    hnsw.KeysWF (hnsw.unlinkOutStep id lvl s c) ∧
      hnsw.EdgeShrink id s (hnsw.unlinkOutStep id lvl s c) := by
  unfold hnsw.unlinkOutStep
  split
  · exact ⟨hwf, edgeShrink_refl id s⟩
  · next nb hg =>
      refine ⟨(setNode_core_inv s s nb (hnsw.setRevLinksAt nb lvl
        ((hnsw.revLinksAt nb lvl).filter (fun x => x ≠ id))) c
        ⟨hwf, fun k => rfl⟩ hg rfl rfl rfl).1, ?_⟩
      exact shrink_setNode id s nb _ c hwf hg rfl (fun L hL => hL)

/-- Processing one reverse-link entry keeps the map well-formed and only
shrinks `id`-edges. -/
theorem unlinkInPair_wf_shrink (id : ℤ) (s : HNSWState) (p : ℤ × List ℤ)
    (hwf : hnsw.KeysWF s) :
    hnsw.KeysWF (hnsw.unlinkInPair id s p) ∧
      hnsw.EdgeShrink id s (hnsw.unlinkInPair id s p) := by
  have hs' : hnsw.KeysWF (p.2.foldl (hnsw.unlinkInStep id p.1) s) ∧
      hnsw.EdgeShrink id s (p.2.foldl (hnsw.unlinkInStep id p.1) s) :=
    foldl_preserve (fun t : HNSWState => hnsw.KeysWF t ∧ hnsw.EdgeShrink id s t) _ _ _
      (fun x b hx =>
        ⟨(unlinkInStep_wf_shrink id p.1 x b hx.1).1,
         edgeShrink_trans id s x _ hx.2 (unlinkInStep_wf_shrink id p.1 x b hx.1).2⟩)
      ⟨hwf, edgeShrink_refl id s⟩
  unfold hnsw.unlinkInPair
  dsimp only
  split
  · exact hs'
  · next cur hg =>
      refine ⟨(setNode_core_inv _ _ cur (hnsw.setRevLinksAt cur p.1 []) id
        ⟨hs'.1, fun k => rfl⟩ hg rfl rfl rfl).1, ?_⟩
      exact edgeShrink_trans id s _ _ hs'.2
        (shrink_setNode id _ cur _ id hs'.1 hg rfl (fun L hL => hL))

/-- Processing one forward-link entry keeps the map well-formed and only
shrinks `id`-edges. -/
theorem unlinkOutPair_wf_shrink (id : ℤ) (s : HNSWState) (p : ℤ × List ℤ)
    (hwf : hnsw.KeysWF s) :
    hnsw.KeysWF (hnsw.unlinkOutPair id s p) ∧
      hnsw.EdgeShrink id s (hnsw.unlinkOutPair id s p) := by
  have hs' : hnsw.KeysWF (p.2.foldl (hnsw.unlinkOutStep id p.1) s) ∧
      hnsw.EdgeShrink id s (p.2.foldl (hnsw.unlinkOutStep id p.1) s) :=
    foldl_preserve (fun t : HNSWState => hnsw.KeysWF t ∧ hnsw.EdgeShrink id s t) _ _ _
      (fun x b hx =>
        ⟨(unlinkOutStep_wf_shrink id p.1 x b hx.1).1,
         edgeShrink_trans id s x _ hx.2 (unlinkOutStep_wf_shrink id p.1 x b hx.1).2⟩)
      ⟨hwf, edgeShrink_refl id s⟩
  unfold hnsw.unlinkOutPair
  dsimp only
  split
  · exact hs'
  · next cur hg =>
      refine ⟨(setNode_core_inv _ _ cur (hnsw.setLinksAt cur p.1 []) id
        ⟨hs'.1, fun k => rfl⟩ hg rfl rfl rfl).1, ?_⟩
      refine edgeShrink_trans id s _ _ hs'.2
        (shrink_setNode id _ cur _ id hs'.1 hg rfl ?_)
      intro L hL
      rw [linksAt_setLinksAt] at hL
      by_cases hLl : L = p.1
      · rw [if_pos hLl] at hL
        simp at hL
      · rwa [if_neg hLl] at hL

/-- Processing source `c` of an incoming edge leaves `c` with no forward edge
to `id` at the processed level. -/
theorem unlinkInStep_clean (id lvl : ℤ) (s : HNSWState) (c : ℤ)
    (hwf : hnsw.KeysWF s) :
    hnsw.CleanAt (hnsw.unlinkInStep id lvl s c) id c lvl := by
  unfold hnsw.unlinkInStep
  cases hg : hnsw.getNode s c with
  | none =>
      intro m hm
      rw [hg] at hm
      exact absurd hm (by simp)
  | some nb =>
      intro m hm hl
      have hni : nb.id = c := getNode_id s c nb hwf hg
      have hself : hnsw.getNode (hnsw.setNode s (hnsw.setLinksAt nb lvl
          ((hnsw.linksAt nb lvl).filter (fun x => x ≠ id)))) c =
          some (hnsw.setLinksAt nb lvl
            ((hnsw.linksAt nb lvl).filter (fun x => x ≠ id))) := by
        unfold hnsw.getNode hnsw.setNode
        rw [show (hnsw.setLinksAt nb lvl
          ((hnsw.linksAt nb lvl).filter (fun x => x ≠ id))).id = c from hni]
        exact lookup_alistSet_self _ _ _
      rw [hself] at hm
      have hme : hnsw.setLinksAt nb lvl
          ((hnsw.linksAt nb lvl).filter (fun x => x ≠ id)) = m := by
        injection hm
      rw [← hme, linksAt_setLinksAt, if_pos rfl] at hl
      exact absurd (List.mem_filter.mp hl).2 (by simp)

/-- After processing a reverse-link entry, none of the sources it listed still
points at `id` at that level. -/
theorem unlinkInPair_clean (id : ℤ) (s : HNSWState) (p : ℤ × List ℤ)
    (hwf : hnsw.KeysWF s) :
    ∀ q ∈ p.2, hnsw.CleanAt (hnsw.unlinkInPair id s p) id q p.1 := by
  have hIF := foldl_establish
    (fun t : HNSWState => hnsw.KeysWF t ∧ hnsw.EdgeShrink id s t)
    (fun c t => hnsw.CleanAt t id c p.1)
    (hnsw.unlinkInStep id p.1) p.2 s
    (fun x b hx => ⟨(unlinkInStep_wf_shrink id p.1 x b hx.1).1,
      edgeShrink_trans id s x _ hx.2 (unlinkInStep_wf_shrink id p.1 x b hx.1).2⟩)
    (fun x b hx => unlinkInStep_clean id p.1 x b hx.1)
    (fun x b c hx hq => cleanAt_of_shrink id c p.1 x _
      (unlinkInStep_wf_shrink id p.1 x b hx.1).2 hq)
    ⟨hwf, edgeShrink_refl id s⟩
  intro q hq
  unfold hnsw.unlinkInPair
  dsimp only
  split
  · exact hIF.2 q hq
  · next cur hg =>
      exact cleanAt_of_shrink id q p.1 _ _
        (shrink_setNode id _ cur _ id hIF.1.1 hg rfl (fun L hL => hL))
        (hIF.2 q hq)

/-- Under the reverse-link invariant, `removeNodeLinks` leaves no node other
than `id` itself holding a forward edge to `id` at any level. -/
theorem removeNodeLinks_noIncoming (st : HNSWState) (id : ℤ) (n : HNode)
    (hwf : hnsw.KeysWF st) (hn : hnsw.getNode st id = some n)
    (hinc : hnsw.IncomingRecorded st id n) :
    hnsw.NoIncoming (hnsw.removeNodeLinks st id) id := by
  have h1 := foldl_establish
    (fun x : HNSWState => hnsw.KeysWF x ∧ hnsw.EdgeShrink id st x)
    (fun (pr : ℤ × List ℤ) x => ∀ q ∈ pr.2, hnsw.CleanAt x id q pr.1)
    (hnsw.unlinkInPair id) n.reverseLinks st
    (fun x b hx => ⟨(unlinkInPair_wf_shrink id x b hx.1).1,
      edgeShrink_trans id st x _ hx.2 (unlinkInPair_wf_shrink id x b hx.1).2⟩)
    (fun x b hx => unlinkInPair_clean id x b hx.1)
    (fun x b c hx hq q hqc => cleanAt_of_shrink id q c.1 x _
      (unlinkInPair_wf_shrink id x b hx.1).2 (hq q hqc))
    ⟨hwf, edgeShrink_refl id st⟩
  obtain ⟨⟨hwf1, hsh1⟩, hclean1⟩ := h1
  have h2 := foldl_preserve
    (fun x : HNSWState => hnsw.KeysWF x ∧
      hnsw.EdgeShrink id (n.reverseLinks.foldl (hnsw.unlinkInPair id) st) x)
    (hnsw.unlinkOutPair id)
    ((hnsw.getNode (n.reverseLinks.foldl (hnsw.unlinkInPair id) st) id).getD
      default).links
    (n.reverseLinks.foldl (hnsw.unlinkInPair id) st)
    (fun x b hx => ⟨(unlinkOutPair_wf_shrink id x b hx.1).1,
      edgeShrink_trans id _ x _ hx.2 (unlinkOutPair_wf_shrink id x b hx.1).2⟩)
    ⟨hwf1, edgeShrink_refl id _⟩
  unfold hnsw.removeNodeLinks
  rw [hn]
  dsimp only
  intro q hq hqid L hl
  have hlk2 := lookup_of_mem_nodup _ q h2.1.1 hq
  obtain ⟨m1, hq1, hl1⟩ := h2.2 q.1 q.2 L hlk2 hl
  obtain ⟨m0, hq0, hl0⟩ := hsh1 q.1 m1 L hq1 hl1
  have hm0 : (q.1, m0) ∈ st.nodes := mem_of_lookup _ _ _ hq0
  unfold hnsw.linksAt alistGet at hl0
  cases hpr : m0.links.lookup L with
  | none =>
      rw [hpr] at hl0
      simp at hl0
  | some ids =>
      rw [hpr] at hl0
      have hprm : (L, ids) ∈ m0.links := mem_of_lookup _ _ _ hpr
      have hrev : q.1 ∈ hnsw.revLinksAt n L := hinc (q.1, m0) hm0 (L, ids) hprm hl0
      unfold hnsw.revLinksAt alistGet at hrev
      cases hrl : n.reverseLinks.lookup L with
      | none =>
          rw [hrl] at hrev
          simp at hrev
      | some rids =>
          rw [hrl] at hrev
          have hrlm : (L, rids) ∈ n.reverseLinks := mem_of_lookup _ _ _ hrl
          exact hclean1 (L, rids) hrlm q.1 hrev m1 hq1 hl1

/-- Writing any node into a well-formed map keeps it well-formed. -/
theorem setNode_keysWF (s : HNSWState) (m : HNode) (h : hnsw.KeysWF s) :
    hnsw.KeysWF (hnsw.setNode s m) := by
  constructor
  · exact alistSet_keys_nodup _ _ _ h.1
  · intro p hp
    rcases mem_alistSet _ _ _ _ hp with rfl | hp'
    · rfl
    · exact h.2 p hp'

/-- **C3** (corrected).  On a well-formed index, a dimension-matching `Update`
of a stored node succeeds, keeps the node's level (it is not resampled) and
replaces its vector — normalised when the metric is cosine.  But the claim's
"removes the node's incident edges" holds only for the edges recorded in the
node's reverse-link index: `removeNodeLinks` finds incoming edges through
`ReverseLinks` alone, and `insertNode` never mirrors into the new node's
reverse index the back-edges its neighbours gain, so on reachable states an
unrecorded incoming edge survives the update (see
`hnsw_update_unrecorded_edge`). -/
theorem hnsw_update_retains_level :
    (∀ (dist : List ℚ → List ℚ → ℚ) (st : HNSWState) (id : ℤ) (v : List ℚ)
        (node : HNode), hnsw.KeysWF st → hnsw.getNode st id = some node →
        v.length = st.dimension →
        (hnsw.Update dist st id v).2 = none ∧
        hnsw.nodeLevel (hnsw.Update dist st id v).1 id = some node.level ∧
        hnsw.nodeVector (hnsw.Update dist st id v).1 id =
          some (if st.distanceName = "cosine" then normalizeQ v else v)) ∧
    (∀ (st : HNSWState) (id : ℤ) (node : HNode),
        hnsw.KeysWF st → hnsw.getNode st id = some node →
        hnsw.IncomingRecorded st id node →
        hnsw.NoIncoming (hnsw.removeNodeLinks st id) id) := by
  constructor
  · intro dist st id v node hwf hn hdim
    have hnid : node.id = id := getNode_id st id node hwf hn
    unfold hnsw.Update
    rw [hn]
    dsimp only
    rw [if_neg (by simp [hdim])]
    dsimp only
    generalize (if st.distanceName = "cosine" then normalizeQ v else v) = w
    have hst1 : hnsw.CoreInv st (hnsw.removeNodeLinks st id) :=
      removeNodeLinks_core st st id ⟨hwf, fun k => rfl⟩
    have hwf2 : hnsw.KeysWF (hnsw.setNode (hnsw.removeNodeLinks st id)
        { node with vector := w, links := [], reverseLinks := [] }) :=
      setNode_keysWF _ _ hst1.1
    have hg2 : hnsw.getNode (hnsw.setNode (hnsw.removeNodeLinks st id)
        { node with vector := w, links := [], reverseLinks := [] }) id =
        some { node with vector := w, links := [], reverseLinks := [] } := by
      unfold hnsw.getNode hnsw.setNode
      rw [show ({ node with vector := w, links := [], reverseLinks := [] } : HNode).id = id
        from hnid]
      exact lookup_alistSet_self _ _ _
    have hci := insertNode_core dist
      (hnsw.setNode (hnsw.removeNodeLinks st id)
        { node with vector := w, links := [], reverseLinks := [] })
      (hnsw.setNode (hnsw.removeNodeLinks st id)
        { node with vector := w, links := [], reverseLinks := [] })
      id st.ef ⟨hwf2, fun k => rfl⟩
    refine ⟨rfl, ?_, ?_⟩
    · rw [nodeLevel_eq_core, hci.2 id]
      unfold hnsw.nodeCore
      rw [hg2]
      rfl
    · rw [nodeVector_eq_core, hci.2 id]
      unfold hnsw.nodeCore
      rw [hg2]
      rfl
  · intro st id node hwf hn hinc
    exact removeNodeLinks_noIncoming st id node hwf hn hinc

set_option maxRecDepth 1600 in
unseal Rat.add Rat.mul Rat.sub Rat.inv Nat.sqrt.iter in
/-- Witness for C3 on the two-node index: updating node 0 keeps level 0 and
stores the new vector, and — node 0's incoming edge `1 → 0` being recorded in
its reverse index — the edge-stripped state holds no edge into node 0. -/
theorem hnsw_update_retains_witness :
    ((hnsw.Update euclideanQ hnswStTwo 0 [2]).2 = none ∧
     hnsw.nodeLevel (hnsw.Update euclideanQ hnswStTwo 0 [2]).1 0 =
       some (HNode.mk 0 [1] 0 [(0, [1])] [(0, [1])]).level ∧
     hnsw.nodeVector (hnsw.Update euclideanQ hnswStTwo 0 [2]).1 0 =
       some (if hnswStTwo.distanceName = "cosine" then normalizeQ [2] else [2])) ∧
    hnsw.NoIncoming (hnsw.removeNodeLinks hnswStTwo 0) 0 :=
  ⟨hnsw_update_retains_level.1 euclideanQ hnswStTwo 0 [2]
      ⟨0, [1], 0, [(0, [1])], [(0, [1])]⟩
      (by unfold hnsw.KeysWF; decide) (by decide) (by decide),
   hnsw_update_retains_level.2 hnswStTwo 0 ⟨0, [1], 0, [(0, [1])], [(0, [1])]⟩
      (by unfold hnsw.KeysWF; decide) (by decide)
      (by unfold hnsw.IncomingRecorded; decide)⟩

set_option maxRecDepth 1600 in
unseal Rat.add Rat.mul Rat.sub Rat.inv Nat.sqrt.iter in
/-- C3 (counterexample): after `Add(0, [1]); Add(1, [3])` node 0 holds the
edge `0 → 1` but node 1's reverse index is empty — the invariant
`removeNodeLinks` relies on fails on this reachable state.  Stripping node 1
leaves the edge `0 → 1` in place (`NoIncoming` fails), and the full
`Update(1, [5])` succeeds yet leaves node 0 linking to node 1 twice: the
stale unremoved edge next to the one re-inserted — `Update` did not remove
the node's incident edges. -/
theorem hnsw_update_unrecorded_edge :
    hnsw.linksAt ((hnsw.getNode hnswStTwo 0).getD default) 0 = [1] ∧
    hnsw.revLinksAt ((hnsw.getNode hnswStTwo 1).getD default) 0 = [] ∧
    (¬ hnsw.IncomingRecorded hnswStTwo 1 ((hnsw.getNode hnswStTwo 1).getD default)) ∧
    hnsw.linksAt ((hnsw.getNode (hnsw.removeNodeLinks hnswStTwo 1) 0).getD default) 0
      = [1] ∧
    (¬ hnsw.NoIncoming (hnsw.removeNodeLinks hnswStTwo 1) 1) ∧
    ((hnsw.Update euclideanQ hnswStTwo 1 [5]).2 = none ∧
     hnsw.linksAt ((hnsw.getNode (hnsw.Update euclideanQ hnswStTwo 1 [5]).1 0).getD
       default) 0 = [1, 1]) := by
  refine ⟨by decide, by decide, by unfold hnsw.IncomingRecorded; decide, by decide,
    ?_, by decide, by decide⟩
  intro hno
  exact absurd
    (show (1 : ℤ) ∈ hnsw.linksAt (⟨0, [1], 0, [(0, [1])], [(0, [])]⟩ : HNode) 0
      from by decide)
    (hno (0, ⟨0, [1], 0, [(0, [1])], [(0, [])]⟩) (by decide) (by decide) 0)

/-! ### Claim C2: gob round-trip and the id-0 entry point -/

set_option maxRecDepth 1600 in
unseal Rat.add Rat.mul Rat.sub Rat.inv Nat.sqrt.iter in
/-- C2 (refutation at the claim's own instance): the gob image stores "no
entry point" as the id `0`, so decoding an index whose entry point is the node
with id `0` drops the entry point: the original one-node index answers a
search, the decoded copy reports an empty index.  With the node keyed `5`
instead, the round-trip preserves the entry point and the search answers are
identical. -/
theorem hnsw_gob_roundtrip_entry_zero :
    hnswStZero.entryPoint = some 0 ∧
    (hnsw.GobDecode (hnsw.GobEncode hnswStZero)).entryPoint = none ∧
    hnsw.Search euclideanQ hnswStZero [1] 1 1 = .ok [⟨0, 0⟩] ∧
    hnsw.Search euclideanQ (hnsw.GobDecode (hnsw.GobEncode hnswStZero)) [1] 1 1 =
      .error .emptyIndex ∧
    (hnsw.GobDecode (hnsw.GobEncode hnswStFive)).entryPoint = some 5 ∧
    hnsw.Search euclideanQ (hnsw.GobDecode (hnsw.GobEncode hnswStFive)) [1] 1 1 =
      hnsw.Search euclideanQ hnswStFive [1] 1 1 := by
  refine ⟨by decide, by decide, by decide, by decide, by decide, by decide⟩

/-! ### Claim C4: what Add does to the chosen cluster's centroid -/

/-- `recalcCentroid` never touches the inverted lists. -/
theorem recalcCentroid_invertedLists (st : PQIVFState) (c : ℤ) :
    (pqivf.recalcCentroid st c).invertedLists = st.invertedLists := by
  unfold pqivf.recalcCentroid
  dsimp only
  split
  · rfl
  · rfl

/-- On a non-empty cluster with an in-range index, `recalcCentroid` writes the
arithmetic mean of the member vectors. -/
theorem recalcCentroid_value (st : PQIVFState) (c : ℤ)
    (h0 : 0 ≤ c) (h1 : c < (st.coarseCentroids.length : ℤ))
    (hne : alistGet st.invertedLists c [] ≠ []) :
    listGetI (pqivf.recalcCentroid st c).coarseCentroids c [] =
      vecDivN (sumVecs st.dimension
          ((alistGet st.invertedLists c []).map (fun e => e.vector)))
        ((alistGet st.invertedLists c []).length : ℚ) := by
  unfold pqivf.recalcCentroid
  dsimp only
  rw [if_neg (fun h => hne (List.length_eq_zero.mp h))]
  dsimp only
  exact listGetI_setI_self _ _ _ _ h0 h1

/-- On a full coarse set, `addCore` picks the nearest centroid and leaves the
centroid table, the inverted lists and the dimension unchanged. -/
theorem addCore_full (dist : List ℚ → List ℚ → ℚ) (st : PQIVFState) (id : ℤ)
    (v : List ℚ) (hfull : ¬ st.coarseCentroids.length < st.coarseK) :
    (pqivf.addCore dist st id v).2.1 = (pqivf.nearestCentroid dist st v).1 ∧
    (pqivf.addCore dist st id v).1.coarseCentroids = st.coarseCentroids ∧
    (pqivf.addCore dist st id v).1.invertedLists = st.invertedLists ∧
    (pqivf.addCore dist st id v).1.dimension = st.dimension := by
  unfold pqivf.addCore
  rw [if_neg hfull]
  dsimp only
  split
  · split
    · exact ⟨rfl, rfl, rfl, rfl⟩
    · exact ⟨rfl, rfl, rfl, rfl⟩
  · exact ⟨rfl, rfl, rfl, rfl⟩

/-- C4 (amended): a successful `Add` on a full coarse set assigns the vector
to the nearest centroid's cluster and then *recomputes* that cluster's
centroid as the arithmetic mean of every member vector now in its inverted
list — not by the incremental running-mean formula over the prior centroid. -/
theorem pqivf_add_recomputes_centroid (dist : List ℚ → List ℚ → ℚ)
    (st : PQIVFState) (id : ℤ) (v : List ℚ)
    (hfull : ¬ st.coarseCentroids.length < st.coarseK)
    (hne : st.coarseCentroids ≠ [])
    (hok : (pqivf.Add dist st id v).2 = none) :
    alistGet (pqivf.Add dist st id v).1.invertedLists
      (pqivf.nearestCentroid dist st v).1 [] ≠ [] ∧
    listGetI (pqivf.Add dist st id v).1.coarseCentroids
      (pqivf.nearestCentroid dist st v).1 [] =
      vecDivN (sumVecs st.dimension
          ((alistGet (pqivf.Add dist st id v).1.invertedLists
            (pqivf.nearestCentroid dist st v).1 []).map (fun e => e.vector)))
        ((alistGet (pqivf.Add dist st id v).1.invertedLists
          (pqivf.nearestCentroid dist st v).1 []).length : ℚ) := by
  have hb : 0 ≤ (pqivf.nearestCentroid dist st v).1 ∧
      (pqivf.nearestCentroid dist st v).1 < (st.coarseCentroids.length : ℤ) :=
    argminIdx_bounds dist st.coarseCentroids v hne
  unfold pqivf.Add at hok ⊢
  by_cases hdim : v.length ≠ st.dimension
  · rw [if_pos hdim] at hok
    simp at hok
  · rw [if_neg hdim] at hok ⊢
    by_cases hdup : alistHas st.idToCluster id = true
    · rw [if_pos hdup] at hok
      simp at hok
    · rw [if_neg hdup] at hok ⊢
      split at hok
      · simp at hok
      · next st2 cluster entry heq =>
          have hfacts := addCore_full dist st id v hfull
          rw [heq] at hfacts
          obtain ⟨hcl, hcc, hil, hdm⟩ := hfacts
          dsimp only at hcl hcc hil hdm ⊢
          rw [← hcl]
          set L := alistGet st2.invertedLists cluster [] ++ [entry] with hL
          have hil3 : (pqivf.recalcCentroid
              { st2 with invertedLists := alistSet st2.invertedLists cluster L }
              cluster).invertedLists = alistSet st2.invertedLists cluster L :=
            recalcCentroid_invertedLists _ _
          rw [hil3, alistGet_alistSet_self]
          refine ⟨by simp [hL], ?_⟩
          have hv := recalcCentroid_value
            { st2 with invertedLists := alistSet st2.invertedLists cluster L }
            cluster (by rw [hcl]; exact hb.1)
            (by dsimp only; rw [hcc, hcl]; exact hb.2)
            (by dsimp only; rw [alistGet_alistSet_self]; simp [hL])
          rw [hv]
          dsimp only
          rw [alistGet_alistSet_self, hdm]

set_option maxRecDepth 1600 in
unseal Rat.add Rat.mul Rat.sub Rat.inv Nat.sqrt.iter in
/-- Witness for C4 on the two-entry index: a third insert recomputes the
cluster mean. -/
theorem pqivf_add_recomputes_witness :
    (¬ pqStTwo.coarseCentroids.length < pqStTwo.coarseK) ∧
    (pqStTwo.coarseCentroids ≠ []) ∧
    ((pqivf.Add euclideanQ pqStTwo 7 [2]).2 = none) ∧
    (alistGet (pqivf.Add euclideanQ pqStTwo 7 [2]).1.invertedLists
      (pqivf.nearestCentroid euclideanQ pqStTwo [2]).1 [] ≠ [] ∧
     listGetI (pqivf.Add euclideanQ pqStTwo 7 [2]).1.coarseCentroids
      (pqivf.nearestCentroid euclideanQ pqStTwo [2]).1 [] =
      vecDivN (sumVecs pqStTwo.dimension
          ((alistGet (pqivf.Add euclideanQ pqStTwo 7 [2]).1.invertedLists
            (pqivf.nearestCentroid euclideanQ pqStTwo [2]).1 []).map (fun e => e.vector)))
        ((alistGet (pqivf.Add euclideanQ pqStTwo 7 [2]).1.invertedLists
          (pqivf.nearestCentroid euclideanQ pqStTwo [2]).1 []).length : ℚ)) := by
  refine ⟨by decide, by decide, by decide, ?_⟩
  exact pqivf_add_recomputes_centroid euclideanQ pqStTwo 7 [2]
    (by decide) (by decide) (by decide)

set_option maxRecDepth 1600 in
unseal Rat.add Rat.mul Rat.sub Rat.inv Nat.sqrt.iter in
/-- C4 (counterexample to the spec's running-mean formula): after a failed
`BulkAdd` leaves cluster 0 with the stale centroid `[0]` and count `3`, a
successful `Add` of `[0]` puts the centroid at the recomputed mean `[1]`,
while the running-mean formula `(n·c + v)/(n+1)` predicts `[0]`. -/
theorem pqivf_running_mean_counterexample :
    (¬ pqStStale.coarseCentroids.length < pqStStale.coarseK) ∧
    (pqivf.nearestCentroid euclideanQ pqStStale [0]).1 = 0 ∧
    alistGet pqStStale.clusterCounts 0 0 = 3 ∧
    listGetI pqStStale.coarseCentroids 0 [] = [0] ∧
    (pqivf.Add euclideanQ pqStStale 5 [0]).2 = none ∧
    listGetI (pqivf.Add euclideanQ pqStStale 5 [0]).1.coarseCentroids 0 [] = [1] ∧
    vecDivN (vectorAdd (vecSMul (3 : ℚ) [0]) [0]) ((3 : ℚ) + 1) = [0] ∧
    ([1] : List ℚ) ≠ [0] := by
  exact ⟨by decide, by decide, by decide, by decide, by decide, by decide,
    by decide, by decide⟩

/-! ### Claim C9: vectors are stored by reference, not copied -/

theorem storeGet_storeSet_self (σ : Store) (a : Addr) (v : List ℚ)
    (ha : a < σ.length) : storeGet (storeSet σ a v) a = v :=
  getD_set_self σ a v [] ha

/-- C9 (amended): in all three engines a successful `Add` keeps the caller's
slice as the stored vector — overwriting the caller's slice afterwards changes
what the index reads back — and on the cosine metric HNSW additionally
normalises the caller's slice in place. -/
theorem add_stores_reference (σ : Store) (a : Addr) (u : List ℚ) (ha : a < σ.length)
    (hst : HNSWRefState) (id1 : ℤ) (h1 : (hnswAddRef σ hst id1 a).2.2 = none)
    (pst : PQRefState) (id2 : ℤ) (h2 : (pqivfAddRef σ pst id2 a).2.2 = none)
    (rst : RPTRefState) (id3 : ℤ) (h3 : (rptAddRef σ rst id3 a).2.2 = none) :
    (hnswNodeVector (storeSet (hnswAddRef σ hst id1 a).1 a u)
      (hnswAddRef σ hst id1 a).2.1 id1 = some u) ∧
    (hst.distanceName = "cosine" →
      storeGet (hnswAddRef σ hst id1 a).1 a = normalizeQ (storeGet σ a)) ∧
    (pqivfEntryVector (storeSet (pqivfAddRef σ pst id2 a).1 a u)
      (pqivfAddRef σ pst id2 a).2.1 id2 = some u) ∧
    (rptPointVector (storeSet (rptAddRef σ rst id3 a).1 a u)
      (rptAddRef σ rst id3 a).2.1 id3 = some u) := by
  unfold hnswAddRef at h1 ⊢
  unfold pqivfAddRef at h2 ⊢
  unfold rptAddRef at h3 ⊢
  by_cases hd1 : (storeGet σ a).length ≠ hst.dimension
  · rw [if_pos hd1] at h1
    simp at h1
  · rw [if_neg hd1] at h1 ⊢
    dsimp only at h1 ⊢
    by_cases hdup1 : alistHas hst.nodes id1 = true
    · rw [if_pos hdup1] at h1
      simp at h1
    · rw [if_neg hdup1] at h1 ⊢
      refine ⟨?_, ?_, ?_⟩
      · unfold hnswNodeVector
        dsimp only
        rw [lookup_alistSet_self, Option.map_some']
        rw [storeGet_storeSet_self]
        split
        · rw [storeSet]
          simpa using ha
        · exact ha
      · intro hcos
        rw [if_pos hcos]
        exact storeGet_storeSet_self σ a _ ha
      · by_cases hd2 : (storeGet σ a).length ≠ pst.dimension
        · rw [if_pos hd2] at h2
          simp at h2
        · rw [if_neg hd2] at h2 ⊢
          by_cases hdup2 : alistHas pst.entries id2 = true
          · rw [if_pos hdup2] at h2
            simp at h2
          · rw [if_neg hdup2] at h2 ⊢
            dsimp only
            refine ⟨?_, ?_⟩
            · unfold pqivfEntryVector
              dsimp only
              split
              · rw [lookup_alistSet_self, Option.map_some', storeGet_storeSet_self]
                simp
                exact Nat.lt_succ_of_lt (Nat.lt_succ_of_lt ha)
              · rw [lookup_alistSet_self, Option.map_some', storeGet_storeSet_self]
                simp
                exact Nat.lt_succ_of_lt ha
            · by_cases hd3 : (storeGet σ a).length ≠ rst.dimension
              · rw [if_pos hd3] at h3
                simp at h3
              · rw [if_neg hd3] at h3 ⊢
                by_cases hdup3 : alistHas rst.points id3 = true
                · rw [if_pos hdup3] at h3
                  simp at h3
                · rw [if_neg hdup3] at h3 ⊢
                  unfold rptPointVector
                  dsimp only
                  rw [lookup_alistSet_self, Option.map_some']
                  rw [storeGet_storeSet_self _ _ _ ha]

set_option maxRecDepth 1600 in
unseal Rat.add Rat.mul Rat.sub Rat.inv Nat.sqrt.iter in
/-- Witness for C9 at a one-slice store shared with each engine. -/
theorem add_stores_reference_witness :
    ((0 : Addr) < ([[(1:ℚ)]] : Store).length) ∧
    ((hnswAddRef [[(1:ℚ)]] ⟨1, "cosine", []⟩ 1 0).2.2 = none) ∧
    ((pqivfAddRef [[(1:ℚ)]] ⟨1, 1, [], []⟩ 2 0).2.2 = none) ∧
    ((rptAddRef [[(1:ℚ)]] ⟨1, [], false⟩ 3 0).2.2 = none) ∧
    ((hnswNodeVector (storeSet (hnswAddRef [[(1:ℚ)]] ⟨1, "cosine", []⟩ 1 0).1 0 [7])
        (hnswAddRef [[(1:ℚ)]] ⟨1, "cosine", []⟩ 1 0).2.1 1 = some [7]) ∧
     ((⟨1, "cosine", []⟩ : HNSWRefState).distanceName = "cosine" →
       storeGet (hnswAddRef [[(1:ℚ)]] ⟨1, "cosine", []⟩ 1 0).1 0 =
         normalizeQ (storeGet [[(1:ℚ)]] 0)) ∧
     (pqivfEntryVector (storeSet (pqivfAddRef [[(1:ℚ)]] ⟨1, 1, [], []⟩ 2 0).1 0 [7])
        (pqivfAddRef [[(1:ℚ)]] ⟨1, 1, [], []⟩ 2 0).2.1 2 = some [7]) ∧
     (rptPointVector (storeSet (rptAddRef [[(1:ℚ)]] ⟨1, [], false⟩ 3 0).1 0 [7])
        (rptAddRef [[(1:ℚ)]] ⟨1, [], false⟩ 3 0).2.1 3 = some [7])) := by
  refine ⟨by decide, by decide, by decide, by decide, ?_⟩
  exact add_stores_reference [[(1:ℚ)]] 0 [7] (by decide)
    ⟨1, "cosine", []⟩ 1 (by decide) ⟨1, 1, [], []⟩ 2 (by decide)
    ⟨1, [], false⟩ 3 (by decide)

set_option maxRecDepth 1600 in
unseal Rat.add Rat.mul Rat.sub Rat.inv Nat.sqrt.iter in
/-- C9 (counterexample to the copy-on-ingress reading): a cosine HNSW `Add`
rewrites the caller's slice `[3,4]` to `[3/5,4/5]` in place, and overwriting
the caller's slice afterwards changes the vector the index reads back. -/
theorem add_reference_counterexample :
    ((hnswAddRef [[(3:ℚ), 4]] ⟨2, "cosine", []⟩ 1 0).2.2 = none) ∧
    storeGet (hnswAddRef [[(3:ℚ), 4]] ⟨2, "cosine", []⟩ 1 0).1 0 = [3/5, 4/5] ∧
    ([(3:ℚ), 4] ≠ [3/5, 4/5]) ∧
    hnswNodeVector (storeSet (hnswAddRef [[(3:ℚ), 4]] ⟨2, "cosine", []⟩ 1 0).1 0 [9, 9])
      (hnswAddRef [[(3:ℚ), 4]] ⟨2, "cosine", []⟩ 1 0).2.1 1 = some [9, 9] ∧
    (some [(9:ℚ), 9] ≠ some [(3:ℚ)/5, 4/5]) := by
  exact ⟨by decide, by decide, by decide, by decide, by decide⟩

/-! ### Claim C6: the code-tuple invariant -/

theorem splitVector_length (v : List ℚ) (n : ℕ) : (pqivf.splitVector v n).length = n := by
  simp [pqivf.splitVector]

/-- A successful `encodeVector` emits exactly `numSubquantizers` indices, each
below the length of its codebook, hence below `pqK`. -/
theorem encodeVector_good (st : PQIVFState) (v : List ℚ) (c : ℤ) (codes : List ℕ)
    (hb : pqivf.BooksWF st) (h : pqivf.encodeVector st v c = some codes) :
    codes.length = st.numSubquantizers ∧ ∀ x ∈ codes, x < st.pqK := by
  unfold pqivf.encodeVector at h
  cases hcb : st.codebooks with
  | none =>
      rw [hcb] at h
      simp at h
  | some cbs =>
      rw [hcb] at h
      dsimp only at h
      by_cases hlen : v.length ≠ (listGetI st.coarseCentroids c []).length
      · rw [if_pos hlen] at h
        simp at h
      · rw [if_neg hlen] at h
        split at h
        · next hall =>
            have hcodes := Option.some.inj h
            obtain ⟨hcbl, hcble⟩ := hb cbs hcb
            constructor
            · rw [← hcodes]
              simp [splitVector_length]

            · intro x hx
              rw [← hcodes] at hx
              obtain ⟨b, hbmem, hbx⟩ := List.mem_map.mp hx
              obtain ⟨p, hpmem, hpb⟩ := List.mem_map.mp hbmem
              have hge : (0:ℤ) ≤ b := by
                have := List.all_eq_true.mp hall b hbmem
                exact of_decide_eq_true this
              have hcbne : cbs.getD p.1 [] ≠ [] := by
                intro hemp
                rw [← hpb, hemp] at hge
                simp [argminIdx, argminScan] at hge
              have hblt : b < ((cbs.getD p.1 []).length : ℤ) := by
                rw [← hpb]
                exact (argminIdx_bounds euclideanQ (cbs.getD p.1 []) p.2 hcbne).2
              have hple : (cbs.getD p.1 []).length ≤ st.pqK := by
                by_cases hpl : p.1 < cbs.length
                · refine hcble _ ?_
                  rw [List.getD_eq_get _ _ hpl]
                  exact List.get_mem _ _ _
                · exact absurd (List.getD_eq_default _ _ (by omega)) hcbne
              omega
        · simp at h

/-- `BooksWF` only reads the codebooks, the subquantizer count and `pqK`. -/
theorem booksWF_of_fields {st st' : PQIVFState}
    (hcb : st'.codebooks = st.codebooks)
    (hns : st'.numSubquantizers = st.numSubquantizers)
    (hpq : st'.pqK = st.pqK) (h : pqivf.BooksWF st) : pqivf.BooksWF st' := by
  intro cbs hc
  rw [hcb] at hc
  rw [hns, hpq]
  exact h cbs hc

/-- `CodesWF` only reads the codebooks, the inverted lists, the subquantizer
count and `pqK`. -/
theorem codesWF_of_fields {st st' : PQIVFState}
    (hcb : st'.codebooks = st.codebooks)
    (hns : st'.numSubquantizers = st.numSubquantizers)
    (hpq : st'.pqK = st.pqK)
    (hil : st'.invertedLists = st.invertedLists)
    (h : pqivf.CodesWF st) : pqivf.CodesWF st' := by
  intro hne p hp e he
  rw [hil] at hp
  rw [hns, hpq]
  exact h (by rw [← hcb]; exact hne) p hp e he

/-- Membership in a map write: the written pair, or an untouched pair with a
different key. -/
theorem mem_alistSet_cases [BEq κ] [LawfulBEq κ] (l : List (κ × β)) (k : κ) (v : β)
    (p : κ × β) (hp : p ∈ alistSet l k v) : p = (k, v) ∨ (p ∈ l ∧ p.1 ≠ k) := by
  unfold alistSet at hp
  by_cases hany : l.any (fun q => q.1 == k)
  · rw [if_pos hany] at hp
    obtain ⟨q, hq, hqe⟩ := List.mem_map.mp hp
    by_cases hqk : q.1 == k
    · rw [if_pos hqk] at hqe
      exact Or.inl hqe.symm
    · rw [if_neg hqk] at hqe
      refine Or.inr ⟨hqe ▸ hq, fun e => ?_⟩
      exact hqk (beq_iff_eq.mpr (by rw [hqe]; exact e))
  · rw [if_neg hany] at hp
    rcases List.mem_append.mp hp with h | h
    · refine Or.inr ⟨h, fun e => ?_⟩
      exact (List.any_eq_false.mp (Bool.eq_false_iff.mpr hany) p h) (by simp [e])
    · exact Or.inl (by simpa using h)

/-- Successful re-encoding makes every entry of the processed list
well-coded. -/
theorem reencodeEntries_good (st : PQIVFState) (c : ℤ) (es : List PQEntry)
    (hb : pqivf.BooksWF st)
    (hok : (pqivf.reencodeEntries st c es).2 = true) :
    ∀ e ∈ (pqivf.reencodeEntries st c es).1,
      pqivf.GoodEntry st.numSubquantizers st.pqK e := by
  induction es with
  | nil =>
      intro e he
      simp [pqivf.reencodeEntries] at he
  | cons e0 es ih =>
      unfold pqivf.reencodeEntries at hok ⊢
      cases henc : pqivf.encodeVector st e0.vector c with
      | none =>
          rw [henc] at hok
          simp at hok
      | some codes =>
          rw [henc] at hok
          dsimp only at hok ⊢
          intro e he
          rcases List.mem_cons.mp he with rfl | he'
          · obtain ⟨h1, h2⟩ := encodeVector_good st e0.vector c codes hb henc
            exact ⟨codes, rfl, h1, h2⟩
          · exact ih hok e he'

/-- Under success, `Reencode` makes every inverted list whose cluster it still
has to process well-coded, keeps already-good lists good, and never touches
the codebooks. -/
theorem Reencode_good (ls : List (ℤ × List PQEntry)) (st : PQIVFState)
    (hb : pqivf.BooksWF st)
    (hinv : ∀ p ∈ st.invertedLists,
      (∀ e ∈ p.2, pqivf.GoodEntry st.numSubquantizers st.pqK e) ∨ ∃ q ∈ ls, q.1 = p.1)
    (hok : (pqivf.Reencode st ls).2 = true) :
    (∀ p ∈ (pqivf.Reencode st ls).1.invertedLists, ∀ e ∈ p.2,
      pqivf.GoodEntry st.numSubquantizers st.pqK e) ∧
    (pqivf.Reencode st ls).1.codebooks = st.codebooks ∧
    (pqivf.Reencode st ls).1.numSubquantizers = st.numSubquantizers ∧
    (pqivf.Reencode st ls).1.pqK = st.pqK := by
  induction ls generalizing st with
  | nil =>
      refine ⟨?_, rfl, rfl, rfl⟩
      intro p hp e he
      rcases hinv p hp with hg | ⟨q, hq, _⟩
      · exact hg e he
      · simp at hq
  | cons pr rest ih =>
      obtain ⟨c, es⟩ := pr
      unfold pqivf.Reencode at hok ⊢
      dsimp only at hok ⊢
      split at hok
      · next hcond =>
          rw [if_pos hcond]
          have hgoodc := reencodeEntries_good st c es hb hcond
          have hres := ih { st with invertedLists := alistSet st.invertedLists c (pqivf.reencodeEntries st c es).1 }
            (booksWF_of_fields rfl rfl rfl hb) ?_ hok
          · exact hres
          · intro p hp
            dsimp only at hp
            rcases mem_alistSet_cases _ _ _ _ hp with rfl | ⟨hpl, hpne⟩
            · exact Or.inl hgoodc
            · rcases hinv p hpl with hg | ⟨q, hq, hqe⟩
              · exact Or.inl hg
              · rcases List.mem_cons.mp hq with rfl | hq'
                · exact absurd hqe hpne.symm
                · exact Or.inr ⟨q, hq', hqe⟩
      · next hcond =>
          simp at hok

/-- A Lloyd iteration keeps the number of centroids. -/
theorem kmeansIterate_length (data cents : List (List ℚ)) (rng : Rng) :
    (pqivf.kmeansIterate data cents rng).1.length = cents.length := by
  unfold pqivf.kmeansIterate
  dsimp only
  refine foldl_preserve
    (fun acc : List (List ℚ) × Rng => acc.1.length = cents.length) _ _ _ ?_ rfl
  intro x b hx
  dsimp only
  split
  · simpa using hx
  · simpa using hx

/-- A trained codebook holds at most `k0` codewords. -/
theorem trainSubquantizer_length (data : List (List ℚ)) (k0 iters : ℕ) (rng : Rng)
    (cb : List (List ℚ)) (h : (pqivf.trainSubquantizer data k0 iters rng).1 = some cb) :
    cb.length ≤ k0 := by
  unfold pqivf.trainSubquantizer at h
  split at h
  · simp at h
  · dsimp only at h
    have hres := Option.some.inj h.symm
    have hlen : ∀ (n : ℕ) (acc : List (List ℚ) × Rng),
        acc.1.length = min k0 data.length →
        (((List.range n).foldl
          (fun (acc : List (List ℚ) × Rng) _ => pqivf.kmeansIterate data acc.1 acc.2)
          acc).1).length = min k0 data.length := by
      intro n acc hacc
      refine foldl_preserve
        (fun acc : List (List ℚ) × Rng => acc.1.length = min k0 data.length) _ _ _ ?_ hacc
      intro x b hx
      rw [kmeansIterate_length]
      exact hx
    have h0 : (((List.range (min k0 data.length)).map
        (fun i => data.getD ((rng.perm data.length).1.getD i 0) [])).length)
        = min k0 data.length := by simp
    rw [hres]
    have := hlen iters
      ((List.range (min k0 data.length)).map
        (fun i => data.getD ((rng.perm data.length).1.getD i 0) []),
       (rng.perm data.length).2) h0
    rw [this]
    exact Nat.min_le_left _ _

/-- Once the per-subspace loop has failed it stays failed. -/
theorem trainStep_none (pqK iters : ℕ) (ds : List (List (List ℚ))) (rng : Rng) :
    (ds.foldl (pqivf.trainStep pqK iters) (none, rng)).1 = none := by
  suffices h : ∀ (acc : Option (List (List (List ℚ))) × Rng), acc.1 = none →
      (ds.foldl (pqivf.trainStep pqK iters) acc).1 = none by
    exact h (none, rng) rfl
  intro acc hacc
  refine foldl_preserve
    (fun acc : Option (List (List (List ℚ))) × Rng => acc.1 = none) _ _ _ ?_ hacc
  intro x b hx
  unfold pqivf.trainStep
  rw [hx]
  exact hx

/-- The per-subspace loop appends one codebook per subspace, each within
`pqK`. -/
theorem trainFold_books (pqK iters : ℕ) (ds : List (List (List ℚ))) :
    ∀ (cbs0 : List (List (List ℚ))) (rng0 : Rng),
      (∀ b ∈ cbs0, b.length ≤ pqK) →
      ∀ cbs, (ds.foldl (pqivf.trainStep pqK iters) (some cbs0, rng0)).1 = some cbs →
        cbs.length = cbs0.length + ds.length ∧ ∀ b ∈ cbs, b.length ≤ pqK := by
  induction ds with
  | nil =>
      intro cbs0 rng0 h0 cbs h
      simp at h
      rw [← h]
      exact ⟨by simp, h0⟩
  | cons d ds ih =>
      intro cbs0 rng0 h0 cbs h
      rw [List.foldl_cons] at h
      have hstep : pqivf.trainStep pqK iters (some cbs0, rng0) d =
          match pqivf.trainSubquantizer d pqK iters rng0 with
          | (none, rng') => (none, rng')
          | (some cb, rng') => (some (cbs0 ++ [cb]), rng') := rfl
      rw [hstep] at h
      cases htr : pqivf.trainSubquantizer d pqK iters rng0 with
      | mk o rng' =>
          rw [htr] at h
          cases o with
          | none =>
              dsimp only at h
              rw [trainStep_none] at h
              simp at h
          | some cb =>
              dsimp only at h
              have hle : ∀ b ∈ cbs0 ++ [cb], b.length ≤ pqK := by
                intro b hb
                rcases List.mem_append.mp hb with hb | hb
                · exact h0 b hb
                · have : b = cb := by simpa using hb
                  rw [this]
                  exact trainSubquantizer_length d pqK iters rng0 cb (by rw [htr])
              obtain ⟨hl, hb⟩ := ih (cbs0 ++ [cb]) rng' hle cbs h
              refine ⟨?_, hb⟩
              rw [hl]
              simp
              omega

/-- A successful `Train` installs well-formed codebooks and leaves every
stored entry well-coded. -/
theorem Train_wf (st : PQIVFState) (rng : Rng)
    (hok : (pqivf.Train st rng).2.2 = none) :
    pqivf.BooksWF (pqivf.Train st rng).1 ∧ pqivf.CodesWF (pqivf.Train st rng).1 := by
  unfold pqivf.Train at hok ⊢
  by_cases hemp : st.invertedLists.length = 0
  · rw [if_pos hemp] at hok
    simp at hok
  · rw [if_neg hemp] at hok ⊢
    dsimp only at hok ⊢
    split at hok
    · simp at hok
    · next hdims =>
        rw [if_neg hdims]
        split at hok
        · next o rng' hstep =>
            simp at hok
        · next cbs rng' hstep =>
            have hcbs := trainFold_books st.pqK st.kMeansIters _ [] rng (by simp) cbs
              (by rw [hstep])
            have hb1 : pqivf.BooksWF { st with codebooks := some cbs } := by
              intro cbs' hc
              have hce : cbs = cbs' := by simpa using hc
              rw [← hce]
              refine ⟨?_, hcbs.2⟩
              have := hcbs.1
              simpa using this
            split at hok
            · next hre =>
                obtain ⟨hgood, hcb, hns, hpq⟩ := Reencode_good _
                  { st with codebooks := some cbs } hb1 (fun p hp => Or.inr ⟨p, hp, rfl⟩) hre
                constructor
                · exact booksWF_of_fields hcb hns hpq hb1
                · intro hne p hp e he
                  rw [hns, hpq]
                  exact hgood p hp e he
            · simp at hok

/-- Entries read through `alistGet` come from a stored pair. -/
theorem alistGet_entry_mem (l : List (ℤ × List PQEntry)) (c : ℤ) (e : PQEntry)
    (he : e ∈ alistGet l c []) : ∃ p ∈ l, e ∈ p.2 := by
  unfold alistGet at he
  cases hlk : l.lookup c with
  | none =>
      rw [hlk] at he
      simp at he
  | some l0 =>
      rw [hlk] at he
      exact ⟨(c, l0), mem_of_lookup _ _ _ hlk, he⟩

/-- `recalcCentroid` only rewrites the centroid table. -/
theorem recalcCentroid_fields (st : PQIVFState) (c : ℤ) :
    (pqivf.recalcCentroid st c).codebooks = st.codebooks ∧
    (pqivf.recalcCentroid st c).numSubquantizers = st.numSubquantizers ∧
    (pqivf.recalcCentroid st c).pqK = st.pqK := by
  unfold pqivf.recalcCentroid
  dsimp only
  split
  · exact ⟨rfl, rfl, rfl⟩
  · exact ⟨rfl, rfl, rfl⟩

/-- `addCore` leaves the inverted lists, the codebooks, the subquantizer count
and `pqK` unchanged. -/
theorem addCore_frame (dist : List ℚ → List ℚ → ℚ) (st : PQIVFState) (id : ℤ)
    (v : List ℚ) :
    (pqivf.addCore dist st id v).1.invertedLists = st.invertedLists ∧
    (pqivf.addCore dist st id v).1.codebooks = st.codebooks ∧
    (pqivf.addCore dist st id v).1.numSubquantizers = st.numSubquantizers ∧
    (pqivf.addCore dist st id v).1.pqK = st.pqK := by
  unfold pqivf.addCore
  dsimp only
  split
  all_goals split
  all_goals try split
  all_goals exact ⟨rfl, rfl, rfl, rfl⟩

/-- `encodeVector_good` transported along equal codebook fields. -/
theorem encodeVector_good2 (st0 st' : PQIVFState) (v : List ℚ) (c : ℤ) (codes : List ℕ)
    (henc : pqivf.encodeVector st' v c = some codes)
    (hcb : st'.codebooks = st0.codebooks)
    (hns : st'.numSubquantizers = st0.numSubquantizers)
    (hpq : st'.pqK = st0.pqK)
    (hb : pqivf.BooksWF st0) :
    codes.length = st0.numSubquantizers ∧ ∀ x ∈ codes, x < st0.pqK := by
  have := encodeVector_good st' v c codes (booksWF_of_fields hcb hns hpq hb) henc
  rw [hns, hpq] at this
  exact this

/-- When `addCore` returns an entry while codebooks are installed, the entry
is well-coded. -/
theorem addCore_entry_good (dist : List ℚ → List ℚ → ℚ) (st : PQIVFState) (id : ℤ)
    (v : List ℚ) (st2 : PQIVFState) (cluster : ℤ) (entry : PQEntry)
    (hb : pqivf.BooksWF st)
    (heq : pqivf.addCore dist st id v = (st2, cluster, some entry))
    (hne : st.codebooks ≠ none) :
    pqivf.GoodEntry st.numSubquantizers st.pqK entry := by
  unfold pqivf.addCore at heq
  dsimp only at heq
  by_cases hfull : st.coarseCentroids.length < st.coarseK
  · rw [if_pos hfull] at heq
    dsimp only at heq
    cases hcb : st.codebooks with
    | none => exact absurd hcb hne
    | some cbs =>
        rw [hcb] at heq
        dsimp only at heq
        split at heq
        · simp at heq
        · next codes henc =>
            have h3 := congrArg (fun t : PQIVFState × ℤ × Option PQEntry => t.2.2) heq
            dsimp only at h3
            have hent := Option.some.inj h3
            obtain ⟨h1, h2⟩ := encodeVector_good2 st _ v _ codes henc
              (by rw [hcb]) rfl rfl hb
            exact ⟨codes, by rw [← hent], h1, h2⟩
  · rw [if_neg hfull] at heq
    dsimp only at heq
    cases hcb : st.codebooks with
    | none => exact absurd hcb hne
    | some cbs =>
        rw [hcb] at heq
        dsimp only at heq
        split at heq
        · simp at heq
        · next codes henc =>
            have h3 := congrArg (fun t : PQIVFState × ℤ × Option PQEntry => t.2.2) heq
            dsimp only at h3
            have hent := Option.some.inj h3
            obtain ⟨h1, h2⟩ := encodeVector_good2 st _ v _ codes henc
              (by rw [hcb]) rfl rfl hb
            exact ⟨codes, by rw [← hent], h1, h2⟩

/-- Appending the entry `addCore` produced keeps the code invariant. -/
theorem append_entry_codes (dist : List ℚ → List ℚ → ℚ) (st : PQIVFState) (id : ℤ)
    (v : List ℚ) (st2 : PQIVFState) (cluster : ℤ) (entry : PQEntry)
    (h : pqivf.BooksWF st ∧ pqivf.CodesWF st)
    (heq : pqivf.addCore dist st id v = (st2, cluster, some entry)) :
    pqivf.BooksWF { st2 with invertedLists := alistSet st2.invertedLists cluster (alistGet st2.invertedLists cluster [] ++ [entry]) } ∧
    pqivf.CodesWF { st2 with invertedLists := alistSet st2.invertedLists cluster (alistGet st2.invertedLists cluster [] ++ [entry]) } := by
  have hf := addCore_frame dist st id v
  rw [heq] at hf
  dsimp only at hf
  obtain ⟨hil, hcb, hns, hpq⟩ := hf
  constructor
  · exact booksWF_of_fields hcb hns hpq h.1
  · intro hne p hp e he
    dsimp only at hne hp ⊢
    have hne' : st.codebooks ≠ none := by
      rw [← hcb]
      exact hne
    rw [hns, hpq]
    rcases mem_alistSet_cases _ _ _ _ hp with rfl | ⟨hpl, _⟩
    · rcases List.mem_append.mp he with he' | he'
      · rw [hil] at he'
        obtain ⟨q, hq, hqe⟩ := alistGet_entry_mem _ _ _ he'
        exact h.2 hne' q hq e hqe
      · have hee : e = entry := by simpa using he'
        rw [hee]
        exact addCore_entry_good dist st id v st2 cluster entry h.1 heq hne'
    · rw [hil] at hpl
      exact h.2 hne' p hpl e he

/-- `Add` keeps the code invariant. -/
theorem Add_codes (dist : List ℚ → List ℚ → ℚ) (st : PQIVFState) (id : ℤ) (v : List ℚ)
    (h : pqivf.BooksWF st ∧ pqivf.CodesWF st) :
    pqivf.BooksWF (pqivf.Add dist st id v).1 ∧ pqivf.CodesWF (pqivf.Add dist st id v).1 := by
  unfold pqivf.Add
  by_cases hdim : v.length ≠ st.dimension
  · rw [if_pos hdim]
    exact h
  · rw [if_neg hdim]
    by_cases hdup : alistHas st.idToCluster id = true
    · rw [if_pos hdup]
      exact h
    · rw [if_neg hdup]
      split
      · next st2 x heq =>
          have hf := addCore_frame dist st id v
          rw [heq] at hf
          dsimp only at hf
          exact ⟨booksWF_of_fields hf.2.1 hf.2.2.1 hf.2.2.2 h.1,
                 codesWF_of_fields hf.2.1 hf.2.2.1 hf.2.2.2 hf.1 h.2⟩
      · next st2 cluster entry heq =>
          dsimp only
          have hap := append_entry_codes dist st id v st2 cluster entry h heq
          refine ⟨booksWF_of_fields (recalcCentroid_fields _ _).1
            (recalcCentroid_fields _ _).2.1 (recalcCentroid_fields _ _).2.2 hap.1, ?_⟩
          exact codesWF_of_fields (recalcCentroid_fields _ _).1
            (recalcCentroid_fields _ _).2.1 (recalcCentroid_fields _ _).2.2
            (recalcCentroid_invertedLists _ _) hap.2

/-- The `BulkAdd` per-id loop keeps the code invariant. -/
theorem BulkAddLoop_codes (dist : List ℚ → List ℚ → ℚ) (vectors : List (ℤ × List ℚ))
    (ids : List ℤ) :
    ∀ (st : PQIVFState) (updated : List ℤ),
      pqivf.BooksWF st ∧ pqivf.CodesWF st →
      pqivf.BooksWF (pqivf.BulkAddLoop dist vectors ids st updated).1 ∧
      pqivf.CodesWF (pqivf.BulkAddLoop dist vectors ids st updated).1 := by
  induction ids with
  | nil =>
      intro st updated h
      exact h
  | cons id rest ih =>
      intro st updated h
      unfold pqivf.BulkAddLoop
      dsimp only
      split
      · exact h
      · split
        · exact h
        · split
          · next st2 x heq =>
              have hf := addCore_frame dist st id (alistGet vectors id [])
              rw [heq] at hf
              dsimp only at hf
              exact ⟨booksWF_of_fields hf.2.1 hf.2.2.1 hf.2.2.2 h.1,
                     codesWF_of_fields hf.2.1 hf.2.2.1 hf.2.2.2 hf.1 h.2⟩
          · next st2 cluster entry heq =>
              exact ih _ _ (append_entry_codes dist st id (alistGet vectors id [])
                st2 cluster entry h heq)

/-- `BulkAdd` keeps the code invariant. -/
theorem BulkAdd_codes (dist : List ℚ → List ℚ → ℚ) (vectors : List (ℤ × List ℚ))
    (st : PQIVFState) (h : pqivf.BooksWF st ∧ pqivf.CodesWF st) :
    pqivf.BooksWF (pqivf.BulkAdd dist st vectors).1 ∧
    pqivf.CodesWF (pqivf.BulkAdd dist st vectors).1 := by
  unfold pqivf.BulkAdd
  dsimp only
  split
  · next st' u e heq =>
      have hl := BulkAddLoop_codes dist vectors
        (sortSlice (fun a b => decide (a < b)) (vectors.map Prod.fst).eraseDups) st [] h
      rw [heq] at hl
      exact hl
  · next st' updated heq =>
      have hl := BulkAddLoop_codes dist vectors
        (sortSlice (fun a b => decide (a < b)) (vectors.map Prod.fst).eraseDups) st [] h
      rw [heq] at hl
      dsimp only at hl
      refine foldl_preserve (fun s => pqivf.BooksWF s ∧ pqivf.CodesWF s) _ _ _ ?_ hl
      intro x b hx
      exact ⟨booksWF_of_fields (recalcCentroid_fields _ _).1
          (recalcCentroid_fields _ _).2.1 (recalcCentroid_fields _ _).2.2 hx.1,
        codesWF_of_fields (recalcCentroid_fields _ _).1 (recalcCentroid_fields _ _).2.1
          (recalcCentroid_fields _ _).2.2 (recalcCentroid_invertedLists _ _) hx.2⟩

/-- `Delete` keeps the code invariant. -/
theorem Delete_codes (st : PQIVFState) (id : ℤ)
    (h : pqivf.BooksWF st ∧ pqivf.CodesWF st) :
    pqivf.BooksWF (pqivf.Delete st id).1 ∧ pqivf.CodesWF (pqivf.Delete st id).1 := by
  unfold pqivf.Delete
  split
  · exact h
  · next cluster hlk =>
      split
      · exact h
      · dsimp only
        split
        · exact h
        · split
          · refine ⟨booksWF_of_fields (by rw [(recalcCentroid_fields _ _).1])
              (by rw [(recalcCentroid_fields _ _).2.1])
              (by rw [(recalcCentroid_fields _ _).2.2]) h.1, ?_⟩
            intro hne p hp e he
            rw [(recalcCentroid_fields _ _).1] at hne
            rw [recalcCentroid_invertedLists] at hp
            rw [(recalcCentroid_fields _ _).2.1, (recalcCentroid_fields _ _).2.2]
            dsimp only at hne hp ⊢
            rcases mem_alistSet_cases _ _ _ _ hp with rfl | ⟨hpl, _⟩
            · have he' := (List.mem_filter.mp he).1
              obtain ⟨q, hq, hqe⟩ := alistGet_entry_mem _ _ _ he'
              exact h.2 hne q hq e hqe
            · exact h.2 hne p hpl e he
          · refine ⟨booksWF_of_fields rfl rfl rfl h.1, ?_⟩
            intro hne p hp e he
            dsimp only at hne hp ⊢
            rcases mem_alistSet_cases _ _ _ _ hp with rfl | ⟨hpl, _⟩
            · have he' := (List.mem_filter.mp he).1
              obtain ⟨q, hq, hqe⟩ := alistGet_entry_mem _ _ _ he'
              exact h.2 hne q hq e hqe
            · exact h.2 hne p hpl e he

/-- `Update` keeps the code invariant. -/
theorem Update_codes (dist : List ℚ → List ℚ → ℚ) (st : PQIVFState) (id : ℤ)
    (v : List ℚ) (h : pqivf.BooksWF st ∧ pqivf.CodesWF st) :
    pqivf.BooksWF (pqivf.Update dist st id v).1 ∧
    pqivf.CodesWF (pqivf.Update dist st id v).1 := by
  unfold pqivf.Update
  split
  · next st1 e heq =>
      have hd := Delete_codes st id h
      rw [heq] at hd
      exact hd
  · next st1 heq =>
      have hd := Delete_codes st id h
      rw [heq] at hd
      dsimp only at hd
      exact Add_codes dist st1 id v hd

/-- Every mutator keeps the code invariant. -/
theorem applyOp_codes (dist : List ℚ → List ℚ → ℚ) (st : PQIVFState) (op : pqivf.PQOp)
    (h : pqivf.BooksWF st ∧ pqivf.CodesWF st) :
    pqivf.BooksWF (pqivf.applyOp dist st op) ∧ pqivf.CodesWF (pqivf.applyOp dist st op) := by
  cases op with
  | add id v => exact Add_codes dist st id v h
  | bulkAdd vectors => exact BulkAdd_codes dist vectors st h
  | delete id => exact Delete_codes st id h
  | update id v => exact Update_codes dist st id v h

/-- C6: a successful `Train` installs well-formed codebooks under which every
stored entry carries exactly `numSubquantizers` code indices, each inside
`[0, pqK)`, and every sequence of `Add`/`BulkAdd`/`Delete`/`Update` calls
preserves that invariant. -/
theorem pqivf_codes_invariant :
    (∀ (st : PQIVFState) (rng : Rng), (pqivf.Train st rng).2.2 = none →
      pqivf.BooksWF (pqivf.Train st rng).1 ∧ pqivf.CodesWF (pqivf.Train st rng).1) ∧
    (∀ (dist : List ℚ → List ℚ → ℚ) (st : PQIVFState) (ops : List pqivf.PQOp),
      pqivf.BooksWF st → pqivf.CodesWF st →
      pqivf.BooksWF (pqivf.applyOps dist st ops) ∧
      pqivf.CodesWF (pqivf.applyOps dist st ops)) := by
  refine ⟨fun st rng hok => Train_wf st rng hok, ?_⟩
  intro dist st ops hb hc
  unfold pqivf.applyOps
  exact foldl_preserve (fun s => pqivf.BooksWF s ∧ pqivf.CodesWF s) _ _ _
    (fun x op hx => applyOp_codes dist x op hx) ⟨hb, hc⟩

set_option maxRecDepth 2000 in
unseal Rat.add Rat.mul Rat.sub Rat.inv Nat.sqrt.iter in
/-- Witness for C6: train on the two-entry index, then run an insert, a delete
and an update. -/
theorem pqivf_codes_invariant_witness :
    ((pqivf.Train pqStTwo rngTrain).2.2 = none) ∧
    (pqivf.BooksWF (pqivf.applyOps euclideanQ (pqivf.Train pqStTwo rngTrain).1 opsC6) ∧
     pqivf.CodesWF (pqivf.applyOps euclideanQ (pqivf.Train pqStTwo rngTrain).1 opsC6)) := by
  have h1 := pqivf_codes_invariant.1 pqStTwo rngTrain (by decide)
  exact ⟨by decide, pqivf_codes_invariant.2 euclideanQ _ opsC6 h1.1 h1.2⟩

/-! ### Claim C1: search results are bounded and sorted -/

theorem flatMap_alistGet_length (l : List (ℤ × List PQEntry)) (cs : List (ℤ × ℚ)) :
    (cs.flatMap (fun c => alistGet l c.1 [])).length =
      ((cs.map Prod.fst).map (fun c => (alistGet l c []).length)).sum := by
  rw [List.length_flatMap, List.map_map]
  rfl

